import Mathlib

/-!
# cppcheck: the error-message generator and the forward value-flow engine

Part 1 embeds `tools/errmsg.cpp` (class `Message`, its `msg`, `generateCode`,
`generateDoc`, and the message table of `main`).  `std::string` is a list of
characters; `std::string::find`, `erase` and `insert` are embedded with their
library semantics.  The two `while` loops of `Message::msg` may run forever, so
they are embedded with a step budget: `none` means the budget ran out.

Part 2 models `valueFlowGenericForward`, which `lib/forwardanalyzer.h` only
declares, from the specification of the forward traversal engine (its sections
3, 4.1, 4.2 and 6): tokens, analyzer, settings, result, and the traversal.
-/

set_option autoImplicit false

namespace ErrMsg

/-- A `std::string`, as its sequence of characters. -/
abbrev Str := List Char

/-- The index of the first occurrence of `pat` in `s`, if any. -/
def findIdx (pat : Str) : Str → Option Nat
  | [] => if pat.isEmpty then some 0 else none
  | c :: cs =>
    if pat.isPrefixOf (c :: cs) then some 0 else (findIdx pat cs).map (· + 1)

/-- `s.find(pat, pos)`: the lowest index `p ≥ pos` at which `pat` occurs in `s`;
`none` stands for `std::string::npos`. -/
def find (s pat : Str) (pos : Nat) : Option Nat :=
  if s.length < pos then none else (findIdx pat (s.drop pos)).map (· + pos)

/-- `s.erase(pos, n)` for `pos ≤ s.size()`. -/
def erase (s : Str) (pos n : Nat) : Str :=
  s.take pos ++ s.drop (pos + n)

/-- `s.insert(pos, t)` for `pos ≤ s.size()`. -/
def insert (s : Str) (pos : Nat) (t : Str) : Str :=
  s.take pos ++ t ++ s.drop pos

/-- The loop
`while ((pos = ret.find(pat, pos)) != npos) { ret.erase(pos, 2); ret.insert(pos, ins); }`
run for at most `fuel` evaluations of its condition; the result is the final
`ret`, or `none` when the budget is used up before the loop exits. -/
def replaceLoop (pat ins : Str) : Nat → Str → Nat → Option Str
  | 0, _, _ => none
  | fuel + 1, ret, pos =>
    match find ret pat pos with
    | none => some ret
    | some p => replaceLoop pat ins fuel (insert (erase ret p 2) p ins) p

/-- Class `Message`: its five private members. `_settings` is an `unsigned int`. -/
structure Message where
  _funcname : Str
  _msg : Str
  _par1 : Str
  _par2 : Str
  _settings : Nat

/-- Constant `Message::ALL`. -/
def Message.ALL : Nat := 1

/-- Constant `Message::STYLE`. -/
def Message.STYLE : Nat := 2

/-- The three-argument constructor. -/
def Message.mk0 (funcname : Str) (settings : Nat) (msg : Str) : Message :=
  ⟨funcname, msg, [], [], settings⟩

/-- The four-argument constructor. -/
def Message.mk1 (funcname : Str) (settings : Nat) (msg par1 : Str) : Message :=
  ⟨funcname, msg, par1, [], settings⟩

/-- The five-argument constructor. -/
def Message.mk2 (funcname : Str) (settings : Nat) (msg par1 par2 : Str) : Message :=
  ⟨funcname, msg, par1, par2, settings⟩

/-- The text `msg` inserts for a placeholder: the name itself in documentation
mode, and the name spliced between two string literals in code mode. -/
def insertion (code : Bool) (par : Str) : Str :=
  if code then "\" + ".toList ++ par ++ " + \"".toList else par

/-- `Message::msg(code)`, each of its two loops run with the budget `fuel`. -/
def Message.msg (m : Message) (fuel : Nat) (code : Bool) : Option Str :=
  let str : Str := if code then "\"".toList else []
  let ret : Str := str ++ m._msg ++ str
  let ret1 : Option Str :=
    if ! m._par1.isEmpty then
      replaceLoop "%1".toList (insertion code m._par1) fuel ret 0
    else some ret
  match ret1 with
  | none => none
  | some r =>
    if ! m._par2.isEmpty then
      replaceLoop "%2".toList (insertion code m._par2) fuel r 0
    else some r

/-- The settings expression `generateCode` writes after `return `. -/
def settingsExpr (settings : Nat) : Str :=
  if settings = 0 then "true".toList
  else if settings = Message.ALL then "s._showAll".toList
  else if settings = Message.STYLE then "s._checkCodingStyle".toList
  else if settings = Message.ALL ||| Message.STYLE then
    "s._showAll & s._checkCodingStyle".toList
  else []

/-- `Message::generateCode(ostr)`: the characters appended to `ostr`, in the
order of the `<<` operations. -/
def Message.generateCode (m : Message) (fuel : Nat) (ostr : Str) : Option Str :=
  let ostr := ostr ++ "    static std::string ".toList ++ m._funcname
    ++ "(const Tokenizer *tokenizer, const Token *Location".toList
  let ostr := if ! m._par1.isEmpty then
    ostr ++ ", const std::string &".toList ++ m._par1 else ostr
  let ostr := if ! m._par2.isEmpty then
    ostr ++ ", const std::string &".toList ++ m._par2 else ostr
  let ostr := ostr ++ ")\n".toList
  let ostr := ostr ++ "    \x7b\n".toList
  match m.msg fuel true with
  | none => none
  | some body =>
    let ostr := ostr ++ "        return msg1(tokenizer, Location) + ".toList ++ body
      ++ ";\n".toList
    let ostr := ostr ++ "    \x7d\n".toList
    let ostr := ostr ++ "    static bool ".toList ++ m._funcname
      ++ "(const Settings &s)".toList ++ "\n".toList
    let ostr := ostr ++ "    \x7b\n".toList
    let ostr := ostr ++ "        return ".toList
    let ostr := ostr ++ settingsExpr m._settings
    let ostr := ostr ++ ";\n".toList
    let ostr := ostr ++ "    \x7d\n\n".toList
    some ostr

/-- `Message::generateDoc(ostr, i)`. -/
def Message.generateDoc (m : Message) (fuel : Nat) (ostr : Str) (i : Nat) : Option Str :=
  if m._settings = i then
    match m.msg fuel false with
    | none => none
    | some t => some (ostr ++ "    ".toList ++ t ++ "\n".toList)
  else some ostr

/-- The list `err` that `main` fills, in order. -/
def err : List Message :=
  [ Message.mk1 "noConstructor".toList Message.STYLE
      "The class '%1' has no constructor".toList "classname".toList,
    Message.mk2 "uninitVar".toList 0
      "Uninitialized member variable '%1::%2'".toList "classname".toList "varname".toList,
    Message.mk2 "unusedPrivateFunction".toList Message.STYLE
      "Unused private function '%1::%2'".toList "classname".toList "funcname".toList,
    Message.mk1 "memleak".toList 0 "Memory leak: %1".toList "varname".toList,
    Message.mk1 "resourceLeak".toList 0 "Resource leak: %1".toList "varname".toList,
    Message.mk0 "cstyleCast".toList Message.STYLE "C-style pointer casting".toList,
    Message.mk0 "redundantIfDelete0".toList Message.STYLE
      "Redundant condition. It is safe to deallocate a NULL pointer".toList,
    Message.mk0 "redundantIfRemove".toList Message.STYLE
      "Redundant condition. The remove function in the STL will not do anything if element doesn't exist".toList,
    Message.mk0 "dangerousUsageStrtol".toList 0
      "Invalid radix in call to strtol or strtoul. Must be 0 or 2-36".toList ]

/-- The documentation loop of `main`: for each suite index `i`, every message
is offered to `generateDoc`; the result lists the text written under suite `i`. -/
def docSuite (fuel : Nat) (msgs : List Message) (i : Nat) : Option Str :=
  msgs.foldlM (fun ostr m => m.generateDoc fuel ostr i) []

/-- Reference for the placeholder replacement, after the wording "every
occurrence of the placeholder is replaced by the name": the text is read left to
right and each `%c` is replaced by `ins`. -/
def substAll (c : Char) (ins : Str) : Str → Str
  | [] => []
  | [a] => [a]
  | a :: b :: rest =>
    if a = '%' ∧ b = c then ins ++ substAll c ins rest
    else a :: substAll c ins (b :: rest)

/-- Pieces of text put together with a separator between consecutive pieces. -/
def joinWith (sep : Str) : List Str → Str
  | [] => []
  | [p] => p
  | p :: q :: rest => p ++ sep ++ joinWith sep (q :: rest)

/-- Reference for one placeholder of `msg`, after the wording "every
occurrence of the placeholder is replaced (if the name is non-empty); a
placeholder whose name is empty is left in the text": each `%c` of `t` is
replaced by the text `ins` when the name `par` is non-empty, and `t` is left as
it is when the name is empty. -/
def substPar (c : Char) (par ins t : Str) : Str :=
  if par.isEmpty then t else substAll c ins t

/-- The declaration that the signature written by `generateCode` carries for a
parameter name: none for an empty name. -/
def paramDecl (par : Str) : Str :=
  if par.isEmpty then [] else ", const std::string &".toList ++ par

/-- The signature line of the function that `generateCode` emits for a message. -/
def signatureLine (m : Message) : Str :=
  "    static std::string ".toList ++ m._funcname
    ++ "(const Tokenizer *tokenizer, const Token *Location".toList
    ++ paramDecl m._par1 ++ paramDecl m._par2 ++ ")\n".toList

/-- The settings predicate that `generateCode` emits after the message function. -/
def settingsFunction (m : Message) : Str :=
  "    static bool ".toList ++ m._funcname ++ "(const Settings &s)".toList ++ "\n".toList
    ++ "    \x7b\n".toList ++ "        return ".toList ++ settingsExpr m._settings
    ++ ";\n".toList ++ "    \x7d\n\n".toList

/-- The template of a message wrapped in double quotes, the text `msg(true)`
starts from. -/
def quoted (m : Message) : Str :=
  "\"".toList ++ m._msg ++ "\"".toList

/-- The array `suite` of the documentation loop of `main`. -/
def suite : List Str :=
  ["standard".toList, "all".toList, "style".toList, "all + style".toList]

/-- The documentation part of `main` (the statements after the comment
`Generate documentation..`), as the characters it appends to `std::cout`:
the heading, then for each suite index `i` from 0 to 3 the suite line and every
message of `msgs` offered to `generateDoc` with `i`, then an empty line. -/
def mainDoc (fuel : Nat) (msgs : List Message) (cout : Str) : Option Str :=
  let cout := cout ++ "Generate doc..".toList ++ "\n".toList
  match (List.range 4).foldlM
      (fun cout i =>
        msgs.foldlM (fun ostr m => m.generateDoc fuel ostr i)
          (cout ++ "    =".toList ++ suite.getD i [] ++ "=".toList ++ "\n".toList))
      cout with
  | none => none
  | some cout => some (cout ++ "\n".toList)

/-- The line that lists a message text in the documentation. -/
def docLine (t : Str) : Str :=
  "    ".toList ++ t ++ "\n".toList

/-- Reference for the listing under one suite: the suite line followed by the
lines of the messages whose settings mask equals the suite index, in order. -/
def suiteBlock (text : Message → Str) (msgs : List Message) (i : Nat) : Str :=
  "    =".toList ++ suite.getD i [] ++ "=".toList ++ "\n".toList
    ++ ((msgs.filter (fun m => decide (m._settings = i))).map
        (fun m => docLine (text m))).flatten

end ErrMsg

namespace ForwardAnalyzer

/-- Modelled from the spec: the per-token outcome `Action` of section 3, one of
`Read`, `Write`, `Inconclusive`, `None`. -/
inductive Action
  | Read
  | Write
  | Inconclusive
  | None
  deriving DecidableEq

/-- Modelled from the spec: `Result.kind`. Section 3 lists `still-live`,
`invalidated`, `read`, `left-scope` and `unsupported-construct`; section 4.1
step 4, section 4.2 and the scenarios of section 8 name one more outcome,
`conditional`, for a fact that is live on one path and dead on another. -/
inductive Kind
  | stillLive
  | invalidated
  | read
  | leftScope
  | unsupportedConstruct
  | conditional
  deriving DecidableEq

/-- Modelled from the spec: the outcome record `Result` of section 3,
`kind`, the token it points at, and the action. Tokens are referred to by their
position in the token sequence. -/
structure Result where
  kind : Kind
  token : Nat
  action : Action
  deriving DecidableEq

/-- Modelled from the spec: the elements of the join lattice of section 4.2,
also the `state` of an annotation record (section 6). -/
inductive FactState
  | live
  | conditional
  | dead
  deriving DecidableEq

/-- Modelled from the spec: the join lattice of section 4.2, `live ⊓ live = live`,
`live ⊓ dead = conditional`, `dead ⊓ dead = dead`; the remaining entries are the
ones the lattice laws force (`conditional` is the meet of `live` and `dead`). -/
def join : FactState → FactState → FactState
  | .live, .live => .live
  | .dead, .dead => .dead
  | _, _ => .conditional

/-- Modelled from the spec: the option `aliasConservatism` of section 6. -/
inductive AliasConservatism
  | strict
  | lenient
  deriving DecidableEq

/-- Modelled from the spec: the read-only `Settings` object of section 6. -/
structure Settings where
  aliasConservatism : AliasConservatism
  maxLoopPasses : Nat
  treatUnknownCallsAsInvalidating : Bool
  deriving DecidableEq

/-- Modelled from the spec: the jump statements of section 4.1 step 6. -/
inductive JumpKind
  | breakJ
  | continueJ
  | returnJ
  | gotoJ
  deriving DecidableEq

/-- Modelled from the spec: the syntactic role of a token and its links to
matching tokens (sections 2, 3 and 6: the token sequence is already
scope-linked). A branch head links to the first token of its second edge and to
its join token; a loop head links to the token that ends the loop; a jump links
to its structural target; `call` is a call whose side effects are unknown. -/
inductive Role
  | plain
  | branchHead (elseTok joinTok : Nat)
  | loopHead (tailTok : Nat)
  | jump (k : JumpKind) (target : Nat)
  | call
  deriving DecidableEq

/-- Modelled from the spec: a `Token` of section 3 as the engine sees it, its
role and the link to the token that ends its enclosing scope. -/
structure Token where
  role : Role
  scopeEnd : Nat
  deriving DecidableEq

/-- Modelled from the spec: the control-flow token cursor of section 2, a
navigable view of the token sequence; a token is identified by its position. -/
abbrev TokenStream := Nat → Token

/-- Modelled from the spec: the `Analyzer` capability of section 3, the fact
payload, the mutable still-valid flag and the behaviour hooks `evaluate` and
`isAlias`; `consumed` is the policy of section 4.1 step 3 that tells whether a
read consumes the fact. The hooks `onBranchSplit` and `merge` are the functions
`onBranchSplit` and `join` of this file. -/
structure Analyzer where
  factId : Nat
  payload : Int
  stillValid : Bool
  evaluate : Nat → Action
  isAlias : Nat → Bool
  consumed : Nat → Bool

/-- Modelled from the spec: cloning an analyzer (section 4.2: deep-copy the
payload, share nothing with the original). -/
def Analyzer.clone (a : Analyzer) : Analyzer :=
  { factId := a.factId, payload := a.payload, stillValid := a.stillValid,
    evaluate := a.evaluate, isAlias := a.isAlias, consumed := a.consumed }

/-- Modelled from the spec: the hook `onBranchSplit` of section 3, one
independent clone for each outgoing edge. -/
def onBranchSplit (a : Analyzer) : Analyzer × Analyzer :=
  (a.clone, a.clone)

/-- Modelled from the spec: the annotation record `{ factId, state }` of
section 6, kept in a side table together with the token it is attached to
(section 9). -/
structure Annotation where
  token : Nat
  factId : Nat
  state : FactState
  deriving DecidableEq

/-- Modelled from the spec: what one traversal carries along. `analyzer` is the
analyzer the traversal works on; `condSince` is `none` while the fact is live
and `some h` once it is conditionally live, `h` being the branch head at which
that happened; `annotations` is the side table, appended to only; `visited`
lists, in order, the tokens the engine has consulted. -/
structure Walk where
  analyzer : Analyzer
  condSince : Option Nat
  annotations : List Annotation
  visited : List Nat

/-- Modelled from the spec: the lattice state of a traversal in progress. -/
def Walk.factState (w : Walk) : FactState :=
  match w.condSince with
  | none => .live
  | some _ => .conditional

/-- Modelled from the spec: section 4.1 steps 1 and 3, the token is consulted,
and a token evaluated as `Read` is recorded as a use site carrying the fact. -/
def Walk.observe (w : Walk) (pos : Nat) (act : Action) : Walk :=
  { w with
    visited := w.visited ++ [pos]
    annotations :=
      if act = .Read then w.annotations ++ [⟨pos, w.analyzer.factId, w.factState⟩]
      else w.annotations }

/-- Modelled from the spec: section 4.1 step 2, "mark the analyzer invalidated". -/
def Walk.invalidate (w : Walk) : Walk :=
  { w with analyzer := { w.analyzer with stillValid := false } }

/-- Modelled from the spec: section 4.1 step 8, exhausting the range without
invalidation yields `Result{still-live, end}`; a fact that is conditionally
live yields `conditional` at the branch head where the paths disagreed
(section 8, first scenario). -/
def finish (w : Walk) (e : Nat) : Result × Walk :=
  match w.condSince with
  | none => (⟨.stillLive, e, .None⟩, w)
  | some h => (⟨.conditional, h, .Inconclusive⟩, w)

/-- Modelled from the spec: the state of the analyzer that an edge returns to
the merge of section 4.1 step 4 ("merge the returned analyzers at the join
point"): `dead` when the edge invalidated the fact, `conditional` when the edge
ended conditionally live, `live` in every other case. An edge that ended with a
consuming read, by leaving the range or with an unsupported construct returns
an analyzer that is still valid. -/
def edgeState (r : Result) : FactState :=
  match r.kind with
  | .invalidated => .dead
  | .conditional => .conditional
  | _ => .live

/-- Modelled from the spec: section 4.1 step 4, the merge at the join point, the
states of the two returned analyzers joined in the lattice of section 4.2:
invalidated only if both edges agree, conditionally live when they disagree. -/
def mergeEdges (r1 r2 : Result) : FactState :=
  join (edgeState r1) (edgeState r2)

/-- Modelled from the spec: section 4.1 step 7, whether the alias and
side-effect policy fails to rule out that a call with unknown side effects
invalidates the fact. Unknown calls invalidate when the setting says so, and,
under strict alias conservatism, when the call may alias the subject. -/
def callMayInvalidate (a : Analyzer) (s : Settings) (t : Nat) : Bool :=
  s.treatUnknownCallsAsInvalidating ||
    (decide (s.aliasConservatism = .strict) && a.isAlias t)

/-- Modelled from the spec: section 4.1 step 6, the result of a jump whose
target cannot be followed inside the range: `unsupported-construct` for a
`goto`, `left-scope` for `break`, `continue` and `return`. -/
def jumpOut (k : JumpKind) : Kind :=
  match k with
  | .gotoJ => .unsupportedConstruct
  | _ => .leftScope

/-- Modelled from the spec: section 4.1 step 5, at most two passes over a loop
body, and no more than the setting `maxLoopPasses` allows. -/
def loopPasses (s : Settings) : Nat :=
  min 2 s.maxLoopPasses

/-- Modelled from the spec: one token of the traversal of section 4.1 over the
range `[pos, e)`; `walk` is the traversal of the ranges that start after `pos`.
Step 8 when the range is exhausted; otherwise steps 1 to 3 (evaluate the token,
stop on a write, annotate a read and stop when the read consumes the fact), and
then, by the role of the token, step 4 (branch head), 5 (loop head), 6 (jump) or
7 (unknown call). A link that does not point forward inside the range is not
followed: the construct is reported as `unsupported-construct`, a jump as
`jumpOut` says. -/
def step (ts : TokenStream) (s : Settings) (walk : Nat → Nat → Walk → Result × Walk)
    (pos e : Nat) (w : Walk) : Result × Walk :=
  if e ≤ pos then finish w e
  else
    let act := w.analyzer.evaluate pos
    let w := w.observe pos act
    if act = .Write then (⟨.invalidated, pos, .Write⟩, w.invalidate)
    else if act = .Read ∧ w.analyzer.consumed pos = true then (⟨.read, pos, .Read⟩, w)
    else
      match (ts pos).role with
      | .plain => walk (pos + 1) e w
      | .call =>
        if callMayInvalidate w.analyzer s pos = true then
          (⟨.invalidated, pos, .Inconclusive⟩, w.invalidate)
        else walk (pos + 1) e w
      | .jump k t =>
        if pos < t ∧ t ≤ e then walk t e w
        else (⟨jumpOut k, pos, .None⟩, w)
      | .branchHead el j =>
        if pos < el ∧ el ≤ j ∧ j ≤ e then
          let o1 := walk (pos + 1) el
            { w with analyzer := (onBranchSplit w.analyzer).1 }
          let o2 := walk el j
            { w with analyzer := (onBranchSplit w.analyzer).2
                     annotations := o1.2.annotations
                     visited := o1.2.visited }
          let w2 : Walk :=
            { w with annotations := o2.2.annotations, visited := o2.2.visited }
          match mergeEdges o1.1 o2.1 with
          | .dead => (⟨.invalidated, pos, .Write⟩, w2.invalidate)
          | .live => walk j e w2
          | .conditional =>
            walk j e { w2 with condSince := some (w.condSince.getD pos) }
        else (⟨.unsupportedConstruct, pos, .None⟩, w)
      | .loopHead tl =>
        if pos < tl ∧ tl ≤ e then
          if loopPasses s = 0 then (⟨.unsupportedConstruct, pos, .None⟩, w)
          else
            let o1 := walk (pos + 1) tl w
            if o1.1.kind = .stillLive ∨ o1.1.kind = .conditional then
              if loopPasses s = 1 then walk tl e o1.2
              else
                let o2 := walk (pos + 1) tl o1.2
                if o2.1.kind = o1.1.kind then walk tl e o2.2
                else (⟨.unsupportedConstruct, pos, .None⟩, o2.2)
            else o1
        else (⟨.unsupportedConstruct, pos, .None⟩, w)

/-- Modelled from the spec: the traversal of section 4.1 over the range
`[pos, e)`, the body of `valueFlowGenericForward`, which is not in the
repository excerpt. The first argument bounds the length of the range: every
recursive call is on a strictly shorter range, so a bound of `e - pos` or more
never cuts the traversal short (`forwardAux_fuel`), and an empty range is all
that is left when the bound is `0`. -/
def forwardAux (ts : TokenStream) (s : Settings) :
    Nat → Nat → Nat → Walk → Result × Walk
  | 0 => fun _ e w => finish w e
  | n + 1 => step ts s (forwardAux ts s n)

/-- Modelled from the spec: the traversal of the range `[pos, e)` of section
4.1, `forwardAux` with the bound that the length of the range gives. -/
def traverse (ts : TokenStream) (s : Settings) (pos e : Nat) (w : Walk) : Result × Walk :=
  forwardAux ts s (e - pos) pos e w

/-- Modelled from the spec: the natural end of the scope enclosing `start`
(section 4.1), read off the scope link of the start token. -/
def naturalEnd (ts : TokenStream) (start : Nat) : Nat :=
  (ts start).scopeEnd

/-- Modelled from the spec: what a traversal call leaves behind, the `Result`,
the annotations it appended to the side table, the tokens it consulted, and
the final state of the analyzer it worked on. -/
structure Outcome where
  result : Result
  table : List Annotation
  visited : List Nat
  working : Analyzer

/-- Modelled from the spec: the public contract of section 4.1,
`forward(start, end?, analyzer, settings) -> Result`. The traversal starts live,
on the analyzer the call is given; `working` is that analyzer when the call
returns, `table` is the annotation side table before the call. -/
def forward (ts : TokenStream) (start : Nat) (end? : Option Nat) (a : Analyzer)
    (s : Settings) (table : List Annotation) : Outcome :=
  let e := end?.getD (naturalEnd ts start)
  let o := traverse ts s start e ⟨a.clone, none, table, []⟩
  ⟨o.1, o.2.annotations, o.2.visited, o.2.analyzer⟩

/-- Modelled from the spec: the overload of `lib/forwardanalyzer.h` line 28,
with an explicit end. -/
def valueFlowGenericForward (ts : TokenStream) (start end_ : Nat) (a : Analyzer)
    (s : Settings) (table : List Annotation) : Outcome :=
  forward ts start (some end_) a s table

/-- Modelled from the spec: the overload of `lib/forwardanalyzer.h` line 33,
without an end. -/
def valueFlowGenericForwardNoEnd (ts : TokenStream) (start : Nat) (a : Analyzer)
    (s : Settings) (table : List Annotation) : Outcome :=
  forward ts start none a s table

/-- Modelled from the spec: the caller's side of a traversal call, its
analyzer object, the settings object and the annotation side table. -/
structure World where
  analyzer : Analyzer
  settings : Settings
  table : List Annotation

/-- Modelled from the spec: a call of `forward` by a check module. The analyzer
is passed by reference (a reference to a `ValuePtr<Analyzer>`,
`lib/forwardanalyzer.h` line 30; `ValuePtr` itself is not in the repository),
and section 4.1 step 2 marks "the analyzer" invalidated, the one the call was
given, which is why the guarantee of idempotence asks for a fresh clone for a
second run: after the call the caller's analyzer is the analyzer the traversal
worked on. The settings are only read (section 6; a pointer to a constant in
the header). The call leaves its annotations in the side table. -/
def World.call (ts : TokenStream) (start : Nat) (end? : Option Nat) (w : World) :
    Result × World :=
  let o := forward ts start end? w.analyzer w.settings w.table
  (o.result, { w with analyzer := o.working, table := o.table })

/-- The tokens that carry an annotation in a table. -/
def annotated (table : List Annotation) : List Nat :=
  table.map (·.token)

/-- A range is straight-line when none of its tokens is a branch head, a loop
head or a jump. -/
def straightLine (ts : TokenStream) (start e : Nat) : Prop :=
  ∀ i, start ≤ i → i < e → (ts i).role = .plain ∨ (ts i).role = .call

/-- How the final analyzer of a traversal relates to the one it started with. -/
def AnalyzerRel (a a' : Analyzer) (r : Result) : Prop :=
  (a' = a ∨ a' = { a with stillValid := false }) ∧
  (r.kind = .stillLive ∨ r.kind = .conditional → a' = a) ∧
  (r.kind = .invalidated → a' = { a with stillValid := false })

/-- The shape of a traversal of `[pos, e)` that starts with analyzer `a` and
state `cs`: its result and final analyzer do not depend on the tables it is
handed, it appends to both tables, and what it appends lies in the range. -/
def ShapeAt (f : Nat → Nat → Walk → Result × Walk) (pos e : Nat) (a : Analyzer)
    (cs : Option Nat) : Prop :=
  ∃ (r : Result) (a' : Analyzer) (cs' : Option Nat) (as : List Annotation) (vs : List Nat),
    (∀ A V, f pos e ⟨a, cs, A, V⟩ = (r, ⟨a', cs', A ++ as, V ++ vs⟩)) ∧
    (∀ t ∈ vs, pos ≤ t ∧ t < e) ∧
    (∀ x ∈ as, x.token ∈ vs ∧ x.factId = a.factId) ∧
    AnalyzerRel a a' r

/-- The annotation `observe` appends. -/
def obsAnn (a : Analyzer) (cs : Option Nat) (pos : Nat) : List Annotation :=
  if a.evaluate pos = .Read then
    [⟨pos, a.factId, (⟨a, cs, [], []⟩ : Walk).factState⟩] else []

end ForwardAnalyzer

namespace ForwardAnalyzer.Scenario

/-- Default settings. -/
def settings : Settings := ⟨.strict, 2, true⟩

/-- A token sequence of plain tokens only. -/
def plainTokens : TokenStream := fun _ => ⟨.plain, 2⟩

/-- A once-only check over `use(x); x = 1;`: token 0 reads `x` and the read
consumes the fact, token 1 writes `x`. -/
def once : Analyzer :=
  { factId := 7, payload := 0, stillValid := true,
    evaluate := fun i => match i with
      | 0 => .Read
      | 1 => .Write
      | _ => .None,
    isAlias := fun _ => false,
    consumed := fun _ => true }

/-- The fact `x == 0` over `y = 2; use(x);`: token 1 reads `x`. -/
def readOnly : Analyzer :=
  { factId := 7, payload := 0, stillValid := true,
    evaluate := fun i => match i with
      | 1 => .Read
      | _ => .None,
    isAlias := fun _ => false,
    consumed := fun _ => false }

end ForwardAnalyzer.Scenario

/-! ## Part 1: the error-message generator, theorems -/

set_option maxRecDepth 100000

namespace ErrMsg

theorem findIdx_some {pat s : Str} {k : Nat} (h : findIdx pat s = some k) :
    k ≤ s.length ∧ pat <+: s.drop k := by
  induction s generalizing k with
  | nil =>
    simp only [findIdx] at h
    split at h
    · rename_i hp
      simp only [Option.some.injEq] at h
      subst h
      simp only [List.isEmpty_iff] at hp
      simp [hp]
    · simp at h
  | cons c cs ih =>
    simp only [findIdx] at h
    split at h
    · rename_i hp
      simp only [Option.some.injEq] at h
      subst h
      rw [List.isPrefixOf_iff_prefix] at hp
      simpa using hp
    · cases hf : findIdx pat cs with
      | none => simp [hf] at h
      | some k' =>
        simp only [hf, Option.map_some', Option.some.injEq] at h
        subst h
        have := ih hf
        simpa using this

theorem find_some {s pat : Str} {pos p : Nat} (h : find s pat pos = some p) :
    pos ≤ p ∧ p ≤ s.length ∧ pat <+: s.drop p := by
  unfold find at h
  split at h
  · simp at h
  · rename_i hlen
    cases hf : findIdx pat (s.drop pos) with
    | none => simp [hf] at h
    | some k =>
      simp only [hf, Option.map_some', Option.some.injEq] at h
      subst h
      obtain ⟨h1, h2⟩ := findIdx_some hf
      simp only [List.length_drop] at h1
      refine ⟨by omega, by omega, ?_⟩
      rw [List.drop_drop] at h2
      rwa [Nat.add_comm] 

theorem insert_erase (ret ins : Str) (p : Nat) (hp : p ≤ ret.length) :
    insert (erase ret p 2) p ins = ret.take p ++ (ins ++ ret.drop (p + 2)) := by
  unfold insert erase
  have h1 : (List.take p ret).length = p := by simp [hp]
  rw [List.take_append_eq_append_take, List.drop_append_eq_append_drop]
  have h2 : List.drop p (List.take p ret) = [] := List.drop_eq_nil_of_le (by omega)
  simp [h1, hp, h2, List.take_take]

theorem replaceLoop_mono (pat ins : Str) :
    ∀ (fuel fuel' : Nat) (ret : Str) (pos : Nat) (r : Str),
      replaceLoop pat ins fuel ret pos = some r → fuel ≤ fuel' →
      replaceLoop pat ins fuel' ret pos = some r := by
  intro fuel
  induction fuel with
  | zero => intro fuel' ret pos r h; simp [replaceLoop] at h
  | succ n ih =>
    intro fuel' ret pos r h hle
    obtain ⟨m, rfl⟩ : ∃ m, fuel' = m + 1 := ⟨fuel' - 1, by omega⟩
    simp only [replaceLoop] at h ⊢
    cases hf : find ret pat pos with
    | none => simpa [hf] using h
    | some p =>
      simp only [hf] at h ⊢
      exact ih m _ _ _ h (by omega)

theorem replaceLoop_terminates (pat ins : Str) (hpat : pat.length = 2)
    (hins : ¬ pat <:+: ins) :
    ∀ (μ : Nat) (ret : Str) (pos b : Nat),
      (∀ q, pos ≤ q → pat <+: ret.drop q → b < q + 2) →
      ret.length - b ≤ μ →
      ∀ fuel, μ < fuel → ∃ r, replaceLoop pat ins fuel ret pos = some r := by
  intro μ
  induction μ with
  | zero =>
    intro ret pos b hinv hμ fuel hfuel
    obtain ⟨f, rfl⟩ : ∃ f, fuel = f + 1 := ⟨fuel - 1, by omega⟩
    simp only [replaceLoop]
    cases hf : find ret pat pos with
    | none => exact ⟨ret, rfl⟩
    | some p =>
      exfalso
      obtain ⟨h1, h2, h3⟩ := find_some hf
      have := hinv p h1 h3
      have hl := h3.length_le
      simp only [List.length_drop] at hl
      omega
  | succ μ ih =>
    intro ret pos b hinv hμ fuel hfuel
    obtain ⟨f, rfl⟩ : ∃ f, fuel = f + 1 := ⟨fuel - 1, by omega⟩
    simp only [replaceLoop]
    cases hf : find ret pat pos with
    | none => exact ⟨ret, rfl⟩
    | some p =>
      obtain ⟨h1, h2, h3⟩ := find_some hf
      have hb := hinv p h1 h3
      have hl := h3.length_le
      simp only [List.length_drop] at hl
      simp only
      rw [insert_erase ret ins p h2]
      apply ih _ p (p + ins.length)
      · intro q hq hpre
        by_contra hcon
        have htk : (List.take p ret).length = p := by simp [h2]
        have hd : List.drop q (List.take p ret ++ (ins ++ List.drop (p + 2) ret))
            = List.drop (q - p) ins ++ List.drop (p + 2) ret := by
          rw [List.drop_append_eq_append_drop, List.drop_append_eq_append_drop]
          have e1 : List.drop q (List.take p ret) = [] := by
            apply List.drop_eq_nil_of_le; omega
          have e2 : List.drop (q - (List.take p ret).length - ins.length)
              (List.drop (p + 2) ret) = List.drop (p + 2) ret := by
            have : q - (List.take p ret).length - ins.length = 0 := by omega
            rw [this]; rfl
          rw [e1, e2, htk]; rfl
        rw [hd] at hpre
        have hlen : pat.length ≤ (List.drop (q - p) ins).length := by
          simp only [List.length_drop]; omega
        have hpre2 : pat <+: List.drop (q - p) ins :=
          List.prefix_of_prefix_length_le hpre (List.prefix_append _ _) hlen
        exact hins (hpre2.isInfix.trans (List.drop_suffix _ _).isInfix)
      · simp only [List.length_append, List.length_take, List.length_drop]
        omega
      · omega

theorem loop_total (pat ins : Str) (hpat : pat.length = 2) (hins : ¬ pat <:+: ins)
    (ret : Str) :
    ∃ r, ∀ fuel, ret.length < fuel → replaceLoop pat ins fuel ret 0 = some r := by
  obtain ⟨r, hr⟩ := replaceLoop_terminates pat ins hpat hins ret.length ret 0 0
    (fun q _ _ => by omega) (by omega) (ret.length + 1) (by omega)
  exact ⟨r, fun fuel hf => replaceLoop_mono pat ins _ fuel ret 0 r hr (by omega)⟩

theorem infix_strip_front {c a : Char} {l : Str} (ha : a ≠ '%')
    (h : ['%', c] <:+: a :: l) : ['%', c] <:+: l := by
  rcases List.infix_cons_iff.mp h with hp | hi
  · rw [List.cons_prefix_cons] at hp
    exact absurd hp.1.symm ha
  · exact hi

theorem infix_strip_back {c a : Char} {l : Str} (ha : a ≠ c)
    (h : ['%', c] <:+: l ++ [a]) : ['%', c] <:+: l := by
  rcases List.infix_concat_iff.mp h with hs | hi
  · exfalso
    obtain ⟨t, ht⟩ := hs
    have : (t ++ ['%', c]).getLast? = (l ++ [a]).getLast? := by rw [ht]
    simp at this
    exact ha this.symm
  · exact hi

theorem insertion_no_placeholder (code : Bool) (par : Str) (c : Char)
    (hc1 : ' ' ≠ c) (hc2 : '+' ≠ c) (hc3 : '"' ≠ c)
    (h : ¬ ['%', c] <:+: par) : ¬ ['%', c] <:+: insertion code par := by
  cases code with
  | false => simpa [insertion] using h
  | true =>
    intro hi
    apply h
    have e : insertion true par
        = '"' :: ' ' :: '+' :: ' ' :: ((((par ++ [' ']) ++ ['+']) ++ [' ']) ++ ['"']) := by
      simp [insertion]
    rw [e] at hi
    have h1 := infix_strip_front (by decide) hi
    have h2 := infix_strip_front (by decide) h1
    have h3 := infix_strip_front (by decide) h2
    have h4 := infix_strip_front (by decide) h3
    have h5 := infix_strip_back hc3 h4
    have h6 := infix_strip_back hc1 h5
    have h7 := infix_strip_back hc2 h6
    exact infix_strip_back hc1 h7

theorem msg_total_aux (m : Message) (code : Bool)
    (h1 : ¬ "%1".toList <:+: m._par1) (h2 : ¬ "%2".toList <:+: m._par2) :
    ∃ N r, ∀ fuel, N ≤ fuel → m.msg fuel code = some r := by
  have hi1 := insertion_no_placeholder code m._par1 '1' (by decide) (by decide) (by decide) h1
  have hi2 := insertion_no_placeholder code m._par2 '2' (by decide) (by decide) (by decide) h2
  generalize hret : (if code then "\"".toList else []) ++ m._msg
      ++ (if code then "\"".toList else []) = ret
  obtain ⟨r1, hr1⟩ := loop_total "%1".toList (insertion code m._par1) rfl hi1 ret
  have step1 : ∃ N1 r, ∀ fuel, N1 ≤ fuel →
      (if ! m._par1.isEmpty then
        replaceLoop "%1".toList (insertion code m._par1) fuel ret 0 else some ret) = some r := by
    by_cases hp : m._par1.isEmpty = true
    · exact ⟨0, ret, fun fuel _ => by simp [hp]⟩
    · exact ⟨ret.length + 1, r1, fun fuel hf => by
        simp only [hp, Bool.not_false, if_true]
        exact hr1 fuel (by omega)⟩
  obtain ⟨N1, r, hN1⟩ := step1
  obtain ⟨r2, hr2⟩ := loop_total "%2".toList (insertion code m._par2) rfl hi2 r
  by_cases hp : m._par2.isEmpty = true
  · refine ⟨N1, r, fun fuel hf => ?_⟩
    unfold Message.msg
    simp only [hret]
    rw [hN1 fuel hf]
    simp [hp]
  · refine ⟨max N1 (r.length + 1), r2, fun fuel hf => ?_⟩
    unfold Message.msg
    simp only [hret]
    rw [hN1 fuel (le_trans (le_max_left _ _) hf)]
    simp only [hp, Bool.not_false, if_true]
    exact hr2 fuel (by have := le_max_right N1 (r.length + 1); omega)

theorem substAll_hit (c : Char) (ins v : Str) :
    substAll c ins ('%' :: c :: v) = ins ++ substAll c ins v := by
  simp [substAll]

theorem substAll_miss (c : Char) (ins : Str) (a : Char) (l : Str)
    (h : List.isPrefixOf ['%', c] (a :: l) = false) :
    substAll c ins (a :: l) = a :: substAll c ins l := by
  cases l with
  | nil => simp [substAll]
  | cons b rest =>
    have h' : ¬ (a = '%' ∧ b = c) := by
      rintro ⟨rfl, rfl⟩
      simp [List.isPrefixOf] at h
    simp [substAll, h']

theorem substAll_append_clean (c : Char) (ins mid v : Str) (hmid : '%' ∉ mid) :
    substAll c ins (mid ++ v) = mid ++ substAll c ins v := by
  induction mid with
  | nil => rfl
  | cons a mid ih =>
    have ha : a ≠ '%' := fun h => hmid (by simp [h])
    have hm : '%' ∉ mid := fun h => hmid (by simp [h])
    have hp : List.isPrefixOf ['%', c] (a :: (mid ++ v)) = false := by
      simp [List.isPrefixOf, Ne.symm ha]
    rw [List.cons_append, substAll_miss c ins a _ hp, ih hm, List.cons_append]

theorem findIdx_append_clean (c : Char) (mid rest : Str) (hmid : '%' ∉ mid) :
    findIdx ['%', c] (mid ++ rest) = (findIdx ['%', c] rest).map (· + mid.length) := by
  induction mid with
  | nil => simp
  | cons a mid ih =>
    have ha : a ≠ '%' := fun h => hmid (by simp [h])
    have hm : '%' ∉ mid := fun h => hmid (by simp [h])
    have hp : List.isPrefixOf ['%', c] (a :: (mid ++ rest)) = false := by
      simp [List.isPrefixOf, Ne.symm ha]
    rw [List.cons_append, findIdx, hp, ih hm]
    cases findIdx ['%', c] rest <;> simp [Nat.add_assoc]

theorem findIdx_substAll (c : Char) (ins : Str) :
    ∀ rest : Str,
      (findIdx ['%', c] rest = none → substAll c ins rest = rest) ∧
      (∀ k, findIdx ['%', c] rest = some k →
        ∃ u v, rest = u ++ '%' :: c :: v ∧ u.length = k ∧
          substAll c ins rest = u ++ (ins ++ substAll c ins v)) := by
  intro rest
  induction rest with
  | nil => simp [findIdx, substAll]
  | cons a l ih =>
    by_cases hp : List.isPrefixOf ['%', c] (a :: l) = true
    · have hpre := List.isPrefixOf_iff_prefix.mp hp
      obtain ⟨v, hv⟩ := hpre
      simp only [List.cons_append, List.nil_append] at hv
      constructor
      · intro h; simp [findIdx, hp] at h
      · intro k h
        simp only [findIdx, hp, if_true, Option.some.injEq] at h
        subst h
        refine ⟨[], v, by simpa using hv.symm, rfl, ?_⟩
        rw [← hv, substAll_hit]; rfl
    · simp only [Bool.not_eq_true] at hp
      constructor
      · intro h
        simp only [findIdx, hp] at h
        rw [substAll_miss c ins a l hp, ih.1 (by simpa using h)]
      · intro k h
        simp only [findIdx, hp] at h
        cases hf : findIdx ['%', c] l with
        | none => simp [hf] at h
        | some k' =>
          simp only [hf, Option.map_some', Bool.false_eq_true, if_false,
            Option.some.injEq] at h
          obtain ⟨u, v, huv, hlen, hs⟩ := ih.2 k' hf
          refine ⟨a :: u, v, by simp [huv], by simp [hlen, h], ?_⟩
          rw [substAll_miss c ins a l hp, hs]; rfl

theorem substAll_clean (c : Char) (ins p : Str) (hp : ¬ ['%', c] <:+: p) :
    substAll c ins p = p := by
  induction p with
  | nil => rfl
  | cons a p ih =>
    have hpre : List.isPrefixOf ['%', c] (a :: p) = false := by
      rw [Bool.eq_false_iff]
      intro h
      exact hp (List.isPrefixOf_iff_prefix.mp h).isInfix
    have hin : ¬ ['%', c] <:+: p := fun h => hp (List.infix_cons h)
    rw [substAll_miss c ins a p hpre, ih hin]

theorem substAll_piece (c : Char) (hc : c ≠ '%') (ins p t : Str) (hp : ¬ ['%', c] <:+: p) :
    substAll c ins (p ++ '%' :: c :: t) = p ++ (ins ++ substAll c ins t) := by
  induction p with
  | nil => exact substAll_hit c ins t
  | cons a p ih =>
    have hin : ¬ ['%', c] <:+: p := fun h => hp (List.infix_cons h)
    have hpre : List.isPrefixOf ['%', c] (a :: (p ++ '%' :: c :: t)) = false := by
      rw [Bool.eq_false_iff]
      intro h
      have h' := List.isPrefixOf_iff_prefix.mp h
      rw [List.cons_prefix_cons] at h'
      obtain ⟨ha, hrest⟩ := h'
      cases p with
      | nil =>
        simp only [List.nil_append, List.cons_prefix_cons] at hrest
        exact hc hrest.1
      | cons b p =>
        simp only [List.cons_append, List.cons_prefix_cons] at hrest
        apply hp
        rw [← ha, hrest.1]
        exact (List.prefix_iff_eq_append.mpr rfl : ['%', b] <+: '%' :: b :: p).isInfix
    rw [List.cons_append, substAll_miss c ins a _ hpre, ih hin, List.cons_append]

/-- The reference replacement does what its name says: when a text is made of
pieces that are free of the placeholder, put together with the placeholder
between them, the result is the same pieces put together with the inserted
text between them. -/
theorem substAll_joinWith (c : Char) (hc : c ≠ '%') (ins : Str) (pieces : List Str)
    (hp : ∀ p ∈ pieces, ¬ ['%', c] <:+: p) :
    substAll c ins (joinWith ['%', c] pieces) = joinWith ins pieces := by
  induction pieces with
  | nil => rfl
  | cons p rest ih =>
    cases rest with
    | nil => exact substAll_clean c ins p (hp p (by simp))
    | cons q rest =>
      have hrest : ∀ x ∈ q :: rest, ¬ ['%', c] <:+: x :=
        fun x hx => hp x (List.mem_cons_of_mem _ hx)
      simp only [joinWith]
      rw [List.append_assoc]
      show substAll c ins (p ++ '%' :: c :: joinWith ['%', c] (q :: rest)) = _
      rw [substAll_piece c hc ins p _ (hp p (by simp)), ih hrest, List.append_assoc]

theorem replaceLoop_eq_substAll (c : Char) (ins : Str) (hins : '%' ∉ ins) :
    ∀ (n : Nat) (rest pre mid : Str), '%' ∉ mid → rest.length ≤ n →
      ∀ fuel, n < fuel →
        replaceLoop ['%', c] ins fuel (pre ++ (mid ++ rest)) pre.length
          = some (pre ++ (mid ++ substAll c ins rest)) := by
  intro n
  induction n using Nat.strong_induction_on with
  | _ n ih =>
    intro rest pre mid hmid hlen fuel hfuel
    obtain ⟨f, rfl⟩ : ∃ f, fuel = f + 1 := ⟨fuel - 1, by omega⟩
    have hfind : find (pre ++ (mid ++ rest)) ['%', c] pre.length
        = (findIdx ['%', c] rest).map (· + (mid.length + pre.length)) := by
      unfold find
      have : ¬ (pre ++ (mid ++ rest)).length < pre.length := by simp
      rw [if_neg this, List.drop_left, findIdx_append_clean c mid rest hmid]
      cases findIdx ['%', c] rest <;> simp [Nat.add_assoc]
    simp only [replaceLoop, hfind]
    cases hf : findIdx ['%', c] rest with
    | none =>
      simp only [Option.map_none']
      rw [(findIdx_substAll c ins rest).1 hf]
    | some k =>
      obtain ⟨u, v, huv, hk, hs⟩ := (findIdx_substAll c ins rest).2 k hf
      simp only [Option.map_some']
      have hle : k + (mid.length + pre.length) ≤ (pre ++ (mid ++ rest)).length := by
        simp [huv]; omega
      rw [insert_erase _ ins _ hle]
      have e1 : pre ++ (mid ++ rest) = (pre ++ (mid ++ u)) ++ ('%' :: c :: v) := by
        simp [huv]
      have hl1 : (pre ++ (mid ++ u)).length = k + (mid.length + pre.length) := by
        simp [hk]; omega
      have t1 : List.take (k + (mid.length + pre.length)) (pre ++ (mid ++ rest))
          = pre ++ (mid ++ u) := by
        rw [e1, ← hl1, List.take_left]
      have t2 : List.drop (k + (mid.length + pre.length) + 2) (pre ++ (mid ++ rest)) = v := by
        rw [e1, ← hl1, List.drop_append]
        rfl
      rw [t1, t2, ← hl1]
      have hv : v.length < n := by
        have : rest.length = u.length + (v.length + 2) := by simp [huv]
        omega
      have := ih v.length hv v (pre ++ (mid ++ u)) ins hins (le_refl _) f (by omega)
      rw [this, hs]
      simp

theorem optLoop_mono (pat ins par ret r : Str) (fuel fuel' : Nat)
    (h : (if (! par.isEmpty) = true then replaceLoop pat ins fuel ret 0 else some ret) = some r)
    (hle : fuel ≤ fuel') :
    (if (! par.isEmpty) = true then replaceLoop pat ins fuel' ret 0 else some ret) = some r := by
  split at h
  · rename_i hp
    rw [if_pos hp]
    exact replaceLoop_mono _ _ _ _ _ _ _ h hle
  · rename_i hp
    rw [if_neg hp]
    exact h

theorem msg_mono (m : Message) (code : Bool) (fuel fuel' : Nat) (r : Str)
    (h : m.msg fuel code = some r) (hle : fuel ≤ fuel') : m.msg fuel' code = some r := by
  unfold Message.msg at h ⊢
  simp only [] at h ⊢
  generalize (if code = true then "\"".toList else []) ++ m._msg
      ++ (if code = true then "\"".toList else []) = ret at h ⊢
  cases h1 : (if (! m._par1.isEmpty) = true then
      replaceLoop "%1".toList (insertion code m._par1) fuel ret 0 else some ret) with
  | none => rw [h1] at h; simp at h
  | some r1 =>
    rw [h1] at h
    rw [optLoop_mono _ _ _ _ _ _ _ h1 hle]
    exact optLoop_mono _ _ _ _ _ _ _ h hle

theorem insertion_clean (code : Bool) (par : Str) (h : '%' ∉ par) :
    '%' ∉ insertion code par := by
  cases code with
  | false => simpa [insertion] using h
  | true =>
    simp only [insertion, if_true, List.mem_append, not_or]
    exact ⟨⟨by decide, h⟩, by decide⟩

theorem loop_eq_substPar (c : Char) (code : Bool) (par ret : Str) (h : '%' ∉ par)
    (fuel : Nat) (hf : ret.length < fuel) :
    (if ! par.isEmpty then replaceLoop ['%', c] (insertion code par) fuel ret 0
      else some ret) = some (substPar c par (insertion code par) ret) := by
  by_cases hp : par.isEmpty = true
  · simp [hp, substPar]
  · simp only [hp, Bool.not_false, if_true, substPar, Bool.false_eq_true, if_false]
    have := replaceLoop_eq_substAll c (insertion code par) (insertion_clean code par h)
      ret.length ret [] [] (by simp) (le_refl _) fuel hf
    simpa using this

theorem msg_eq_aux (m : Message) (code : Bool) (h1 : '%' ∉ m._par1) (h2 : '%' ∉ m._par2) :
    ∃ N, ∀ fuel, N ≤ fuel →
      m.msg fuel code = some (substPar '2' m._par2 (insertion code m._par2) (substPar '1' m._par1 (insertion code m._par1)
        ((if code then "\"".toList else []) ++ m._msg ++ (if code then "\"".toList else [])))) := by
  generalize hret : (if code then "\"".toList else []) ++ m._msg
      ++ (if code then "\"".toList else []) = ret
  refine ⟨max ret.length (substPar '1' m._par1 (insertion code m._par1) ret).length + 1, fun fuel hf => ?_⟩
  unfold Message.msg
  simp only [hret]
  have e1 := loop_eq_substPar '1' code m._par1 ret h1 fuel
    (by have := le_max_left ret.length (substPar '1' m._par1 (insertion code m._par1) ret).length; omega)
  have e2 := loop_eq_substPar '2' code m._par2 (substPar '1' m._par1 (insertion code m._par1) ret) h2 fuel
    (by have := le_max_right ret.length (substPar '1' m._par1 (insertion code m._par1) ret).length; omega)
  have q1 : "%1".toList = ['%', '1'] := rfl
  have q2 : "%2".toList = ['%', '2'] := rfl
  rw [q1, q2, e1]
  exact e2

/-- The loops of `Message::msg` do run forever when a name contains its own
placeholder: for the template `%1` and the name `%1` no budget is enough. -/
theorem msg_diverges (fuel : Nat) :
    (Message.mk1 "f".toList 0 "%1".toList "%1".toList).msg fuel false = none := by
  have h : ∀ fuel, replaceLoop ['%', '1'] ['%', '1'] fuel ['%', '1'] 0 = none := by
    intro fuel
    induction fuel with
    | zero => rfl
    | succ n ih =>
      have hfind : find ['%', '1'] ['%', '1'] 0 = some 0 := by decide
      have hnext : insert (erase ['%', '1'] 0 2) 0 ['%', '1'] = ['%', '1'] := by decide
      simp only [replaceLoop, hfind, hnext]
      exact ih
  have := h fuel
  simp [Message.msg, Message.mk1, insertion, this]

/-- C8. `Message::msg` terminates in both modes whenever the first name does
not contain `%1` and the second name does not contain `%2`: from some budget on,
every budget gives the result, and the same one. -/
theorem msg_terminates (m : Message) (code : Bool)
    (h1 : ¬ "%1".toList <:+: m._par1) (h2 : ¬ "%2".toList <:+: m._par2) :
    ∃ N r, ∀ fuel, N ≤ fuel → m.msg fuel code = some r :=
  msg_total_aux m code h1 h2

/-- Witness of C8 at the message `uninitVar` of `main`, in code mode. -/
theorem msg_terminates_witness :
    (¬ "%1".toList <:+: "classname".toList) ∧ (¬ "%2".toList <:+: "varname".toList) ∧
    ∃ N r, ∀ fuel, N ≤ fuel →
      (Message.mk2 "uninitVar".toList 0 "Uninitialized member variable '%1::%2'".toList
        "classname".toList "varname".toList).msg fuel true = some r :=
  ⟨by decide, by decide,
    msg_terminates (Message.mk2 "uninitVar".toList 0
      "Uninitialized member variable '%1::%2'".toList "classname".toList "varname".toList)
      true (by decide) (by decide)⟩

/-- C9. For names without a `%` character, `msg(false)` is the template with
every `%1` replaced by the first name (when it is non-empty) and then every `%2`
of that text replaced by the second name (when it is non-empty); `msg(true)` is
the same sequential replacement on the template wrapped in double quotes, each
placeholder replaced by the text `" + name + "`. A placeholder whose name is
empty stays in the text. -/
theorem msg_eq_substitution (m : Message) (h1 : '%' ∉ m._par1) (h2 : '%' ∉ m._par2) :
    ∃ N, ∀ fuel, N ≤ fuel →
      m.msg fuel false
        = some (substPar '2' m._par2 m._par2 (substPar '1' m._par1 m._par1 m._msg)) ∧
      m.msg fuel true
        = some (substPar '2' m._par2 ("\" + ".toList ++ m._par2 ++ " + \"".toList)
            (substPar '1' m._par1 ("\" + ".toList ++ m._par1 ++ " + \"".toList)
              ("\"".toList ++ m._msg ++ "\"".toList))) := by
  obtain ⟨N1, hN1⟩ := msg_eq_aux m false h1 h2
  obtain ⟨N2, hN2⟩ := msg_eq_aux m true h1 h2
  refine ⟨max N1 N2, fun fuel hf => ⟨?_, ?_⟩⟩
  · have := hN1 fuel (le_trans (le_max_left _ _) hf)
    simpa [insertion] using this
  · have := hN2 fuel (le_trans (le_max_right _ _) hf)
    simpa [insertion] using this

/-- Witness of C9: the message `uninitVar` of `main`, whose documentation text
is `Uninitialized member variable 'classname::varname'` and whose code text is
`"Uninitialized member variable '" + classname + "::" + varname + "'"`; and a
message without names, whose placeholder stays in the text. -/
theorem msg_eq_substitution_witness :
    ('%' ∉ "classname".toList) ∧ ('%' ∉ "varname".toList) ∧
    (∃ N, ∀ fuel, N ≤ fuel →
      (Message.mk2 "uninitVar".toList 0 "Uninitialized member variable '%1::%2'".toList
          "classname".toList "varname".toList).msg fuel false
        = some (substPar '2' "varname".toList "varname".toList
            (substPar '1' "classname".toList "classname".toList
              "Uninitialized member variable '%1::%2'".toList)) ∧
      (Message.mk2 "uninitVar".toList 0 "Uninitialized member variable '%1::%2'".toList
          "classname".toList "varname".toList).msg fuel true
        = some (substPar '2' "varname".toList ("\" + ".toList ++ "varname".toList ++ " + \"".toList)
            (substPar '1' "classname".toList
              ("\" + ".toList ++ "classname".toList ++ " + \"".toList)
              ("\"".toList ++ "Uninitialized member variable '%1::%2'".toList
                ++ "\"".toList)))) ∧
    (∀ fuel, 2 ≤ fuel →
      (Message.mk2 "uninitVar".toList 0 "Uninitialized member variable '%1::%2'".toList
          "classname".toList "varname".toList).msg fuel false
        = some "Uninitialized member variable 'classname::varname'".toList) ∧
    (∀ fuel, 2 ≤ fuel →
      (Message.mk2 "uninitVar".toList 0 "Uninitialized member variable '%1::%2'".toList
          "classname".toList "varname".toList).msg fuel true
        = some "\"Uninitialized member variable '\" + classname + \"::\" + varname + \"'\"".toList) ∧
    substPar '2' "varname".toList ("\" + ".toList ++ "varname".toList ++ " + \"".toList)
        (substPar '1' "classname".toList
          ("\" + ".toList ++ "classname".toList ++ " + \"".toList)
          ("\"".toList ++ "Uninitialized member variable '%1::%2'".toList ++ "\"".toList))
      = "\"Uninitialized member variable '\" + classname + \"::\" + varname + \"'\"".toList ∧
    (∀ fuel, (Message.mk0 "f".toList 0 "a%1b%2".toList).msg fuel true
      = some "\"a%1b%2\"".toList) :=
  ⟨by decide, by decide,
    msg_eq_substitution (Message.mk2 "uninitVar".toList 0
      "Uninitialized member variable '%1::%2'".toList "classname".toList "varname".toList)
      (by decide) (by decide),
    fun fuel hf => msg_mono _ false 2 fuel _ (by decide) hf,
    fun fuel hf => msg_mono _ true 2 fuel _ (by decide) hf,
    by decide,
    fun _ => rfl⟩

theorem generateCode_eq (m : Message) (fuel : Nat) (ostr : Str) :
    m.generateCode fuel ostr = (m.msg fuel true).map (fun body =>
      ostr ++ signatureLine m ++ "    \x7b\n".toList
        ++ "        return msg1(tokenizer, Location) + ".toList ++ body ++ ";\n".toList
        ++ "    \x7d\n".toList ++ settingsFunction m) := by
  unfold Message.generateCode
  cases hb : m.msg fuel true with
  | none => rfl
  | some body =>
    simp only [Option.map_some', Option.some.injEq]
    by_cases h1 : m._par1.isEmpty = true <;> by_cases h2 : m._par2.isEmpty = true <;>
      simp only [signatureLine, settingsFunction, paramDecl, h1, h2, Bool.not_true,
        Bool.not_false, Bool.false_eq_true, if_true, if_false, List.append_assoc,
        List.append_nil, List.nil_append]

theorem settingsExpr_large (n : Nat) (h : 3 < n) : settingsExpr n = [] := by
  have h0 : n ≠ 0 := by omega
  have h1 : n ≠ Message.ALL := by simp only [Message.ALL]; omega
  have h2 : n ≠ Message.STYLE := by simp only [Message.STYLE]; omega
  have h3 : n ≠ Message.ALL ||| Message.STYLE := by
    have : Message.ALL ||| Message.STYLE = 3 := by decide
    rw [this]; omega
  simp only [settingsExpr, h0, h1, h2, h3, if_false]

theorem findIdx_complete (pat : Str) :
    ∀ s : Str, pat <:+: s → ∃ k, findIdx pat s = some k := by
  intro s
  induction s with
  | nil =>
    intro h
    have : pat = [] := List.eq_nil_of_infix_nil h
    subst this
    exact ⟨0, rfl⟩
  | cons c cs ih =>
    intro h
    by_cases hp : pat.isPrefixOf (c :: cs) = true
    · exact ⟨0, by simp only [findIdx, hp, if_true]⟩
    · rcases List.infix_cons_iff.mp h with hpre | hin
      · exact absurd (List.isPrefixOf_iff_prefix.mpr hpre) hp
      · obtain ⟨k, hk⟩ := ih hin
        exact ⟨k + 1, by simp only [findIdx, hp, hk, Option.map_some']; rfl⟩

theorem find_complete (s pat : Str) (pos : Nat) (hpos : pos ≤ s.length)
    (h : pat <:+: s.drop pos) : ∃ p, find s pat pos = some p := by
  obtain ⟨k, hk⟩ := findIdx_complete pat _ h
  refine ⟨k + pos, ?_⟩
  unfold find
  rw [if_neg (by omega), hk]
  rfl

/-- The loop of `Message::msg` never exits when the inserted text contains the
placeholder and the text has an occurrence at or after the search position:
every round finds an occurrence and inserts another one at the position the
next search starts from. -/
theorem replaceLoop_diverges (pat ins : Str) (hin : pat <:+: ins) :
    ∀ (fuel : Nat) (ret : Str) (pos : Nat), pos ≤ ret.length → pat <:+: ret.drop pos →
      replaceLoop pat ins fuel ret pos = none := by
  intro fuel
  induction fuel with
  | zero => intro ret pos _ _; rfl
  | succ n ih =>
    intro ret pos hpos h
    obtain ⟨p, hf⟩ := find_complete ret pat pos hpos h
    obtain ⟨-, h2, -⟩ := find_some hf
    simp only [replaceLoop, hf]
    rw [insert_erase ret ins p h2]
    have hlen : (List.take p ret).length = p := by simp [h2]
    apply ih
    · simp only [List.length_append, hlen]
      omega
    · have hd : List.drop p (List.take p ret ++ (ins ++ List.drop (p + 2) ret))
          = ins ++ List.drop (p + 2) ret := by
        rw [List.drop_append_eq_append_drop, hlen, Nat.sub_self, List.drop_zero,
          List.drop_eq_nil_of_le (by omega)]
        rfl
      rw [hd]
      exact hin.trans (List.prefix_append _ _).isInfix

theorem msg_code_diverges_first (fuel : Nat) :
    (Message.mk1 "f".toList 0 "%1".toList "%1".toList).msg fuel true = none := by
  have h := replaceLoop_diverges ['%', '1'] (insertion true ['%', '1']) (by decide) fuel
    ['"', '%', '1', '"'] 0 (by decide) (by decide)
  have e : (Message.mk1 "f".toList 0 "%1".toList "%1".toList).msg fuel true
      = (match replaceLoop ['%', '1'] (insertion true ['%', '1']) fuel
            ['"', '%', '1', '"'] 0 with
          | none => none
          | some r => some r) := rfl
  rw [e, h]

theorem msg_code_diverges_second (fuel : Nat) :
    (Message.mk2 "g".toList 0 "%2".toList "a".toList "%2".toList).msg fuel true = none := by
  cases fuel with
  | zero => rfl
  | succ n =>
    have h := replaceLoop_diverges ['%', '2'] (insertion true ['%', '2']) (by decide) (n + 1)
      ['"', '%', '2', '"'] 0 (by decide) (by decide)
    have e : (Message.mk2 "g".toList 0 "%2".toList "a".toList "%2".toList).msg (n + 1) true
        = replaceLoop ['%', '2'] (insertion true ['%', '2']) (n + 1)
            ['"', '%', '2', '"'] 0 := rfl
    rw [e, h]

/-- A message whose first name does not contain `%1` and whose second name does
not contain `%2` is one for which `msg(true)` returns. -/
theorem code_returns_of_clean_names (m : Message)
    (h : ¬ "%1".toList <:+: m._par1 ∧ ¬ "%2".toList <:+: m._par2) :
    ∃ fuel t, m.msg fuel true = some t := by
  obtain ⟨N, r, hr⟩ := msg_total_aux m true h.1 h.2
  exact ⟨N, r, hr N (le_refl _)⟩

/-- C10, as stated, fails: the message with the template `%2` and the names
`a` and `%2` has two non-empty names, yet `generateCode` never emits the
function that would declare and splice them: `msg(true)` never returns, no
budget gives an output. -/
theorem generateCode_diverges_counterexample :
    (Message.mk2 "g".toList 0 "%2".toList "a".toList "%2".toList)._par1 ≠ [] ∧
    (Message.mk2 "g".toList 0 "%2".toList "a".toList "%2".toList)._par2 ≠ [] ∧
    (∀ fuel, (Message.mk2 "g".toList 0 "%2".toList "a".toList "%2".toList).msg fuel true
      = none) ∧
    (∀ (fuel : Nat) (ostr : Str),
      (Message.mk2 "g".toList 0 "%2".toList "a".toList "%2".toList).generateCode fuel ostr
        = none) := by
  refine ⟨by decide, by decide, msg_code_diverges_second, ?_⟩
  intro fuel ostr
  rw [generateCode_eq, msg_code_diverges_second fuel]
  rfl

/-- C10, amended. For a message for which `msg(true)` returns (some budget
gives its text; so it is whenever the first name does not contain `%1` and the
second does not contain `%2`, `code_returns_of_clean_names`): with enough budget
`generateCode` emits the function whose signature declares
`const std::string &name` for exactly the non-empty parameter names, the first
before the second, and whose return expression is `msg(true)`, which runs the
replacement of `%1` (of `%2`) only when the first (second) name is non-empty:
with an empty first name the body is what the `%2` loop alone gives, with an
empty second name what the `%1` loop alone gives. -/
theorem generateCode_params_declared (m : Message)
    (hret : ∃ fuel t, m.msg fuel true = some t) :
    ∃ (N : Nat) (body : Str), ∀ fuel, N ≤ fuel →
      m.msg fuel true = some body ∧
      (∀ ostr, m.generateCode fuel ostr
        = some (ostr ++ signatureLine m ++ "    \x7b\n".toList
          ++ "        return msg1(tokenizer, Location) + ".toList ++ body ++ ";\n".toList
          ++ "    \x7d\n".toList ++ settingsFunction m)) ∧
      (m._par1 = [] → paramDecl m._par1 = [] ∧
        (if m._par2 = [] then some (quoted m)
          else replaceLoop "%2".toList (insertion true m._par2) fuel (quoted m) 0) = some body) ∧
      (m._par1 ≠ [] → paramDecl m._par1 = ", const std::string &".toList ++ m._par1) ∧
      (m._par2 = [] → paramDecl m._par2 = [] ∧
        (if m._par1 = [] then some (quoted m)
          else replaceLoop "%1".toList (insertion true m._par1) fuel (quoted m) 0) = some body) ∧
      (m._par2 ≠ [] → paramDecl m._par2 = ", const std::string &".toList ++ m._par2) := by
  obtain ⟨f0, body, h0⟩ := hret
  refine ⟨f0, body, fun fuel hf => ?_⟩
  have hb : m.msg fuel true = some body := msg_mono m true f0 fuel body h0 hf
  refine ⟨hb, ?_, ?_, ?_, ?_, ?_⟩
  · intro ostr
    rw [generateCode_eq, hb]
    rfl
  · intro h1
    refine ⟨by simp only [paramDecl, h1, List.isEmpty_nil, if_true], ?_⟩
    rw [← hb]
    unfold Message.msg
    by_cases h2 : m._par2 = []
    · simp only [h1, h2, quoted, List.isEmpty_nil, Bool.not_true, Bool.false_eq_true,
        if_true, if_false]
    · have h2' : m._par2.isEmpty = false := by simpa using h2
      simp only [h1, h2, h2', quoted, List.isEmpty_nil, Bool.not_true, Bool.not_false,
        Bool.false_eq_true, if_true, if_false]
  · intro h1
    have h1' : m._par1.isEmpty = false := by simpa using h1
    simp only [paramDecl, h1', Bool.false_eq_true, if_false]
  · intro h2
    refine ⟨by simp only [paramDecl, h2, List.isEmpty_nil, if_true], ?_⟩
    rw [← hb]
    unfold Message.msg
    by_cases h1 : m._par1 = []
    · simp only [h1, h2, quoted, List.isEmpty_nil, Bool.not_true, Bool.false_eq_true,
        if_true, if_false]
    · have h1' : m._par1.isEmpty = false := by simpa using h1
      simp only [h1, h2, h1', quoted, List.isEmpty_nil, Bool.not_true, Bool.not_false,
        Bool.false_eq_true, if_true, if_false]
      cases replaceLoop "%1".toList (insertion true m._par1) fuel
        ("\"".toList ++ m._msg ++ "\"".toList) 0 <;> rfl
  · intro h2
    have h2' : m._par2.isEmpty = false := by simpa using h2
    simp only [paramDecl, h2', Bool.false_eq_true, if_false]

/-- Witness of the amended C10, the message `memleak` of `main`: `msg(true)`
returns, and with a budget of 2 or more `generateCode` emits the function whose
signature declares `varname` and whose return expression splices `varname`. -/
theorem generateCode_params_declared_witness :
    (∃ fuel t, (Message.mk1 "memleak".toList 0 "Memory leak: %1".toList
      "varname".toList).msg fuel true = some t) ∧
    (∃ (N : Nat) (body : Str), ∀ fuel, N ≤ fuel →
      (Message.mk1 "memleak".toList 0 "Memory leak: %1".toList "varname".toList).msg fuel true
        = some body ∧
      ∀ ostr, (Message.mk1 "memleak".toList 0 "Memory leak: %1".toList
          "varname".toList).generateCode fuel ostr
        = some (ostr ++ signatureLine (Message.mk1 "memleak".toList 0 "Memory leak: %1".toList
            "varname".toList) ++ "    \x7b\n".toList
          ++ "        return msg1(tokenizer, Location) + ".toList ++ body ++ ";\n".toList
          ++ "    \x7d\n".toList ++ settingsFunction (Message.mk1 "memleak".toList 0
            "Memory leak: %1".toList "varname".toList))) ∧
    (∀ fuel, 2 ≤ fuel →
      (Message.mk1 "memleak".toList 0 "Memory leak: %1".toList "varname".toList).msg fuel true
        = some "\"Memory leak: \" + varname + \"\"".toList) ∧
    (Message.mk1 "memleak".toList 0 "Memory leak: %1".toList "varname".toList).generateCode 2 []
      = some ("    static std::string memleak(const Tokenizer *tokenizer, const Token *Location, const std::string &varname)\n".toList
          ++ "    \x7b\n".toList
          ++ "        return msg1(tokenizer, Location) + \"Memory leak: \" + varname + \"\";\n".toList
          ++ "    \x7d\n".toList
          ++ "    static bool memleak(const Settings &s)\n    \x7b\n        return true;\n    \x7d\n\n".toList) :=
  have hret : ∃ fuel t, (Message.mk1 "memleak".toList 0 "Memory leak: %1".toList
      "varname".toList).msg fuel true = some t :=
    ⟨2, "\"Memory leak: \" + varname + \"\"".toList, by decide⟩
  ⟨hret,
    (generateCode_params_declared _ hret).elim fun N h => h.elim fun body h =>
      ⟨N, body, fun fuel hf => ⟨(h fuel hf).1, (h fuel hf).2.1⟩⟩,
    fun fuel hf => msg_mono _ true 2 fuel _ (by decide) hf,
    by decide⟩

/-- C11, as stated, fails: the message with the template `%1` and the name
`%1` has the mask 0, yet `generateCode` never emits its settings predicate:
`msg(true)`, which is called before the predicate is written, never returns, so
no budget gives an output. -/
theorem settings_predicate_counterexample :
    (Message.mk1 "f".toList 0 "%1".toList "%1".toList)._settings = 0 ∧
    (∀ fuel, (Message.mk1 "f".toList 0 "%1".toList "%1".toList).msg fuel true = none) ∧
    (∀ (fuel : Nat) (ostr : Str),
      (Message.mk1 "f".toList 0 "%1".toList "%1".toList).generateCode fuel ostr = none) := by
  refine ⟨rfl, msg_code_diverges_first, ?_⟩
  intro fuel ostr
  rw [generateCode_eq, msg_code_diverges_first fuel]
  rfl

/-- C11, amended. For a message for which `msg(true)` returns (some budget
gives its text; so it is whenever the first name does not contain `%1` and the
second does not contain `%2`, `code_returns_of_clean_names`): with enough budget
what `generateCode` emits ends with the settings predicate, the text
`static bool <funcname>(const Settings &s)` with the body `return <expr>;`,
where `<expr>` is `true` for the mask 0, `s._showAll` for `ALL` (1),
`s._checkCodingStyle` for `STYLE` (2) and `s._showAll & s._checkCodingStyle`
for `ALL | STYLE` (3); the expression is non-empty exactly for these four masks,
and for a mask above 3 the emitted statement is `return ;`. -/
theorem generateCode_settings (m : Message)
    (hret : ∃ fuel t, m.msg fuel true = some t) :
    (∃ (N : Nat) (body : Str), ∀ fuel, N ≤ fuel →
      m.msg fuel true = some body ∧
      ∀ ostr, m.generateCode fuel ostr
        = some (ostr ++ signatureLine m ++ "    \x7b\n".toList
          ++ "        return msg1(tokenizer, Location) + ".toList ++ body ++ ";\n".toList
          ++ "    \x7d\n".toList
          ++ ("    static bool ".toList ++ m._funcname
            ++ "(const Settings &s)".toList ++ "\n".toList ++ "    \x7b\n".toList
            ++ "        return ".toList ++ settingsExpr m._settings ++ ";\n".toList
            ++ "    \x7d\n\n".toList))) ∧
    (m._settings = 0 → settingsExpr m._settings = "true".toList) ∧
    (m._settings = Message.ALL → settingsExpr m._settings = "s._showAll".toList) ∧
    (m._settings = Message.STYLE → settingsExpr m._settings = "s._checkCodingStyle".toList) ∧
    (m._settings = Message.ALL ||| Message.STYLE →
      settingsExpr m._settings = "s._showAll & s._checkCodingStyle".toList) ∧
    (settingsExpr m._settings ≠ [] ↔
      m._settings = 0 ∨ m._settings = Message.ALL ∨ m._settings = Message.STYLE ∨
        m._settings = Message.ALL ||| Message.STYLE) ∧
    (3 < m._settings →
      "        return ".toList ++ settingsExpr m._settings ++ ";\n".toList
        = "        return ;\n".toList) := by
  refine ⟨?_, ?_, ?_, ?_, ?_, ?_, ?_⟩
  · obtain ⟨f0, body, h0⟩ := hret
    refine ⟨f0, body, fun fuel hf => ?_⟩
    have hb : m.msg fuel true = some body := msg_mono m true f0 fuel body h0 hf
    refine ⟨hb, fun ostr => ?_⟩
    rw [generateCode_eq, hb]
    rfl
  · intro h0; rw [h0]; rfl
  · intro h0; rw [h0]; rfl
  · intro h0; rw [h0]; rfl
  · intro h0; rw [h0]; rfl
  · constructor
    · intro hne
      by_contra hc
      simp only [not_or] at hc
      apply hne
      simp only [settingsExpr, hc.1, hc.2.1, hc.2.2.1, hc.2.2.2, if_false]
    · rintro (h0 | h0 | h0 | h0) <;> rw [h0] <;> decide
  · intro h3
    rw [settingsExpr_large _ h3]
    rfl

/-- Witness of the amended C11: for the message `noConstructor` of `main`,
whose mask is `STYLE`, `msg(true)` returns and the emitted predicate returns
`s._checkCodingStyle`; for a message with the mask 4 the emitted statement is
`return ;`. -/
theorem generateCode_settings_witness :
    (∃ fuel t, (Message.mk1 "noConstructor".toList Message.STYLE
        "The class '%1' has no constructor".toList "classname".toList).msg fuel true = some t) ∧
    settingsExpr (Message.mk1 "noConstructor".toList Message.STYLE
        "The class '%1' has no constructor".toList "classname".toList)._settings
      = "s._checkCodingStyle".toList ∧
    (∃ N, ∀ fuel, N ≤ fuel → ∃ out, (Message.mk1 "noConstructor".toList Message.STYLE
        "The class '%1' has no constructor".toList "classname".toList).generateCode fuel []
      = some out) ∧
    (Message.mk1 "noConstructor".toList Message.STYLE
        "The class '%1' has no constructor".toList "classname".toList).generateCode 2 []
      = some ("    static std::string noConstructor(const Tokenizer *tokenizer, const Token *Location, const std::string &classname)\n".toList
          ++ "    \x7b\n".toList
          ++ "        return msg1(tokenizer, Location) + \"The class '\" + classname + \"' has no constructor\";\n".toList
          ++ "    \x7d\n".toList
          ++ "    static bool noConstructor(const Settings &s)\n    \x7b\n        return s._checkCodingStyle;\n    \x7d\n\n".toList) ∧
    (Message.mk0 "f".toList 4 "x".toList).generateCode 1 []
      = some ("    static std::string f(const Tokenizer *tokenizer, const Token *Location)\n".toList
          ++ "    \x7b\n".toList
          ++ "        return msg1(tokenizer, Location) + \"x\";\n".toList
          ++ "    \x7d\n".toList
          ++ "    static bool f(const Settings &s)\n    \x7b\n        return ;\n    \x7d\n\n".toList) :=
  have hret : ∃ fuel t, (Message.mk1 "noConstructor".toList Message.STYLE
      "The class '%1' has no constructor".toList "classname".toList).msg fuel true = some t :=
    ⟨2, "\"The class '\" + classname + \"' has no constructor\"".toList, by decide⟩
  ⟨hret, (generateCode_settings _ hret).2.2.2.1 rfl,
    (generateCode_settings _ hret).1.elim fun N h => h.elim fun _ h =>
      ⟨N, fun fuel hf => ⟨_, (h fuel hf).2 []⟩⟩,
    by decide, by decide⟩

theorem generateDoc_eq (m : Message) (fuel : Nat) (ostr : Str) (i : Nat) :
    m.generateDoc fuel ostr i =
      if m._settings = i then (m.msg fuel false).map (fun t => ostr ++ docLine t)
      else some ostr := by
  unfold Message.generateDoc
  by_cases h : m._settings = i
  · simp only [if_pos h]
    cases m.msg fuel false with
    | none => rfl
    | some t => simp only [Option.map_some', docLine, List.append_assoc]
  · simp only [if_neg h]

theorem docFold (fuel i : Nat) (text : Message → Str) :
    ∀ (msgs : List Message) (ostr : Str),
      (∀ m ∈ msgs, m._settings = i → m.msg fuel false = some (text m)) →
      msgs.foldlM (fun ostr m => m.generateDoc fuel ostr i) ostr
        = some (ostr ++ ((msgs.filter (fun m => decide (m._settings = i))).map
            (fun m => docLine (text m))).flatten) := by
  intro msgs
  induction msgs with
  | nil => intro ostr _; simp only [List.foldlM_nil, List.filter_nil, List.map_nil,
      List.flatten_nil, List.append_nil]; rfl
  | cons a l ih =>
    intro ostr h
    have hl : ∀ m ∈ l, m._settings = i → m.msg fuel false = some (text m) :=
      fun m hm => h m (List.mem_cons_of_mem _ hm)
    rw [List.foldlM_cons, generateDoc_eq]
    by_cases ha : a._settings = i
    · rw [if_pos ha, h a (List.mem_cons_self _ _) ha]
      simp only [Option.map_some', Option.bind_eq_bind, Option.some_bind]
      rw [ih _ hl]
      have hd : decide (a._settings = i) = true := by simpa using ha
      simp only [List.filter_cons, hd, if_true, List.map_cons, List.flatten_cons,
        List.append_assoc]
    · rw [if_neg ha]
      simp only [Option.bind_eq_bind, Option.some_bind]
      rw [ih _ hl]
      have hd : decide (a._settings = i) = false := by simpa using ha
      simp only [List.filter_cons, hd, Bool.false_eq_true, if_false]

theorem mainDoc_eq (fuel : Nat) (msgs : List Message) (text : Message → Str)
    (h : ∀ m ∈ msgs, m._settings < 4 → m.msg fuel false = some (text m)) (cout : Str) :
    mainDoc fuel msgs cout = some (cout ++ "Generate doc..".toList ++ "\n".toList
      ++ suiteBlock text msgs 0 ++ suiteBlock text msgs 1 ++ suiteBlock text msgs 2
      ++ suiteBlock text msgs 3 ++ "\n".toList) := by
  have hr : List.range 4 = [0, 1, 2, 3] := by decide
  have hf : ∀ i, i < 4 → ∀ ostr,
      msgs.foldlM (fun ostr m => m.generateDoc fuel ostr i) ostr
        = some (ostr ++ ((msgs.filter (fun m => decide (m._settings = i))).map
            (fun m => docLine (text m))).flatten) :=
    fun i hi ostr => docFold fuel i text msgs ostr (fun m hm hmi => h m hm (by omega))
  unfold mainDoc
  simp only [hr, List.foldlM_cons, List.foldlM_nil, hf 0 (by omega), hf 1 (by omega),
    hf 2 (by omega), hf 3 (by omega), Option.bind_eq_bind, Option.some_bind, pure,
    suiteBlock, List.append_assoc]

theorem msgs_total (msgs : List Message)
    (hret : ∀ m ∈ msgs, ∃ fuel t, m.msg fuel false = some t) :
    ∃ (N : Nat) (text : Message → Str), ∀ fuel, N ≤ fuel →
      ∀ m ∈ msgs, m.msg fuel false = some (text m) := by
  have key : ∀ m : Message, ∃ Nr : Nat × Str,
      (∃ fuel t, m.msg fuel false = some t) →
        ∀ fuel, Nr.1 ≤ fuel → m.msg fuel false = some Nr.2 := by
    intro m
    by_cases hm : ∃ fuel t, m.msg fuel false = some t
    · obtain ⟨N, r, hr⟩ := hm
      exact ⟨(N, r), fun _ fuel hf => msg_mono m false N fuel r hr hf⟩
    · exact ⟨(0, []), fun h => absurd h hm⟩
  choose F hF using key
  have bound : ∀ l : List Message, ∃ N, ∀ m ∈ l, (F m).1 ≤ N := by
    intro l
    induction l with
    | nil => exact ⟨0, fun m hm => by cases hm⟩
    | cons a l ih =>
      obtain ⟨N, hN⟩ := ih
      refine ⟨max (F a).1 N, fun m hm => ?_⟩
      rcases List.mem_cons.mp hm with rfl | hm
      · exact le_max_left _ _
      · exact le_trans (hN m hm) (le_max_right _ _)
  obtain ⟨N, hN⟩ := bound msgs
  exact ⟨N, fun m => (F m).2, fun fuel hf m hm =>
    hF m (hret m hm) fuel (le_trans (hN m hm) hf)⟩

/-- A message whose first name does not contain `%1` and whose second name does
not contain `%2` is one for which `msg(false)` returns. -/
theorem returns_of_clean_names (m : Message)
    (h : ¬ "%1".toList <:+: m._par1 ∧ ¬ "%2".toList <:+: m._par2) :
    ∃ fuel t, m.msg fuel false = some t := by
  obtain ⟨N, r, hr⟩ := msg_total_aux m false h.1 h.2
  exact ⟨N, r, hr N (le_refl _)⟩

/-- C12, as stated, fails: the message with the template `%1` and the name `%1`
has the mask 0, yet `generateDoc(ostr, 0)` never completes its line, because
`msg(false)` never returns: no budget gives a result. The documentation loop of
`main` over this message never gets past it either. -/
theorem generateDoc_diverges_counterexample :
    (Message.mk1 "f".toList 0 "%1".toList "%1".toList)._settings = 0 ∧
    (∀ (fuel : Nat) (ostr : Str),
      (Message.mk1 "f".toList 0 "%1".toList "%1".toList).generateDoc fuel ostr 0 = none) ∧
    (∀ (fuel : Nat) (cout : Str),
      mainDoc fuel [Message.mk1 "f".toList 0 "%1".toList "%1".toList] cout = none) := by
  have hdoc : ∀ (fuel : Nat) (ostr : Str),
      (Message.mk1 "f".toList 0 "%1".toList "%1".toList).generateDoc fuel ostr 0 = none := by
    intro fuel ostr
    rw [generateDoc_eq, msg_diverges fuel]
    rfl
  refine ⟨rfl, hdoc, ?_⟩
  intro fuel cout
  have hr : List.range 4 = [0, 1, 2, 3] := by decide
  unfold mainDoc
  simp only [hr, List.foldlM_cons, List.foldlM_nil, hdoc, Option.bind_eq_bind,
    Option.none_bind]

/-- C12, amended. For messages for which `msg(false)` returns (some budget
gives its text; so it is whenever the first name does not contain `%1` and the
second does not contain `%2`, `returns_of_clean_names`): with enough
budget `generateDoc(ostr, i)` writes exactly the line made of four spaces,
`msg(false)` and a newline when the mask of the message equals `i`, and nothing
otherwise (for every message it writes nothing when the mask differs from `i`);
the documentation loop of `main` writes, for each suite index 0 to 3, the suite
line followed by the lines of the messages whose mask equals the index, so a
message with a mask of at most 3 is listed under the suite of its mask and under
no other, and a message with a mask above 3 is listed under no suite. -/
theorem doc_listing (msgs : List Message)
    (hret : ∀ m ∈ msgs, ∃ fuel t, m.msg fuel false = some t) :
    ∃ (N : Nat) (text : Message → Str), ∀ fuel, N ≤ fuel →
      (∀ m ∈ msgs, m.msg fuel false = some (text m)) ∧
      (∀ m ∈ msgs, ∀ (ostr : Str) (i : Nat),
        m.generateDoc fuel ostr i =
          some (if m._settings = i then ostr ++ "    ".toList ++ text m ++ "\n".toList
            else ostr)) ∧
      (∀ (m : Message) (ostr : Str) (i : Nat),
        m._settings ≠ i → m.generateDoc fuel ostr i = some ostr) ∧
      (∀ cout, mainDoc fuel msgs cout = some (cout ++ "Generate doc..".toList ++ "\n".toList
        ++ suiteBlock text msgs 0 ++ suiteBlock text msgs 1 ++ suiteBlock text msgs 2
        ++ suiteBlock text msgs 3 ++ "\n".toList)) ∧
      (∀ m ∈ msgs, m._settings ≤ 3 → ∀ i, i < 4 →
        (m ∈ msgs.filter (fun x => decide (x._settings = i)) ↔ i = m._settings)) ∧
      (∀ m ∈ msgs, 3 < m._settings → ∀ i, i < 4 →
        m ∉ msgs.filter (fun x => decide (x._settings = i))) := by
  obtain ⟨N, text, hN⟩ := msgs_total msgs hret
  refine ⟨N, text, fun fuel hf => ⟨hN fuel hf, ?_, ?_, ?_, ?_, ?_⟩⟩
  · intro m hm ostr i
    rw [generateDoc_eq, hN fuel hf m hm]
    by_cases h : m._settings = i
    · simp only [if_pos h, Option.map_some', docLine, List.append_assoc]
    · simp only [if_neg h]
  · intro m ostr i h
    rw [generateDoc_eq, if_neg h]
  · intro cout
    exact mainDoc_eq fuel msgs text (fun m hm _ => hN fuel hf m hm) cout
  · intro m hm _ i _
    simp only [List.mem_filter, hm, true_and, decide_eq_true_eq]
    exact eq_comm
  · intro m _ h3 i hi hmem
    simp only [List.mem_filter, decide_eq_true_eq] at hmem
    omega

theorem err_resolved_two :
    ∀ m ∈ err, ∃ t, m.msg 2 false = some t ∧
      ¬ "%1".toList <:+: t ∧ ¬ "%2".toList <:+: t := by
  intro m hm
  simp only [err, List.mem_cons, List.mem_singleton, List.not_mem_nil, or_false] at hm
  rcases hm with rfl | rfl | rfl | rfl | rfl | rfl | rfl | rfl | rfl
  · exact ⟨"The class 'classname' has no constructor".toList, by decide, by decide, by decide⟩
  · exact ⟨"Uninitialized member variable 'classname::varname'".toList, by decide, by decide,
      by decide⟩
  · exact ⟨"Unused private function 'classname::funcname'".toList, by decide, by decide,
      by decide⟩
  · exact ⟨"Memory leak: varname".toList, by decide, by decide, by decide⟩
  · exact ⟨"Resource leak: varname".toList, by decide, by decide, by decide⟩
  · exact ⟨"C-style pointer casting".toList, by decide, by decide, by decide⟩
  · exact ⟨"Redundant condition. It is safe to deallocate a NULL pointer".toList, by decide,
      by decide, by decide⟩
  · exact ⟨"Redundant condition. The remove function in the STL will not do anything if element doesn't exist".toList,
      by decide, by decide, by decide⟩
  · exact ⟨"Invalid radix in call to strtol or strtoul. Must be 0 or 2-36".toList, by decide,
      by decide, by decide⟩

/-- Witness of the amended C12: the nine messages of `main`, and the text their
documentation loop writes. -/
theorem doc_listing_witness :
    (∀ m ∈ err, ∃ fuel t, m.msg fuel false = some t) ∧
    (∃ N, ∀ fuel, N ≤ fuel → ∃ out, mainDoc fuel err [] = some out) ∧
    mainDoc 2 err [] = some ("Generate doc..\n".toList
      ++ "    =standard=\n".toList
      ++ "    Uninitialized member variable 'classname::varname'\n".toList
      ++ "    Memory leak: varname\n".toList
      ++ "    Resource leak: varname\n".toList
      ++ "    Invalid radix in call to strtol or strtoul. Must be 0 or 2-36\n".toList
      ++ "    =all=\n".toList
      ++ "    =style=\n".toList
      ++ "    The class 'classname' has no constructor\n".toList
      ++ "    Unused private function 'classname::funcname'\n".toList
      ++ "    C-style pointer casting\n".toList
      ++ "    Redundant condition. It is safe to deallocate a NULL pointer\n".toList
      ++ "    Redundant condition. The remove function in the STL will not do anything if element doesn't exist\n".toList
      ++ "    =all + style=\n".toList
      ++ "\n".toList) :=
  have hret : ∀ m ∈ err, ∃ fuel t, m.msg fuel false = some t := fun m hm =>
    (err_resolved_two m hm).elim fun t h => ⟨2, t, h.1⟩
  ⟨hret,
    (doc_listing err hret).elim fun N h => h.elim fun _ h =>
      ⟨N, fun fuel hf => ⟨_, (h fuel hf).2.2.2.1 []⟩⟩,
    by decide⟩

/-- C13. For each of the nine messages registered in `main` the placeholders
are fully resolved: with a budget of 2 or more `msg(false)` returns a text that
contains neither `%1` nor `%2`; and a template contains `%1` (`%2`) only when
the first (second) parameter name is non-empty. -/
theorem err_placeholders_resolved (m : Message) (hm : m ∈ err) :
    (∃ t, (∀ fuel, 2 ≤ fuel → m.msg fuel false = some t) ∧
      ¬ "%1".toList <:+: t ∧ ¬ "%2".toList <:+: t) ∧
    ("%1".toList <:+: m._msg → m._par1 ≠ []) ∧
    ("%2".toList <:+: m._msg → m._par2 ≠ []) := by
  obtain ⟨t, ht, h1, h2⟩ := err_resolved_two m hm
  refine ⟨⟨t, fun fuel hf => msg_mono m false 2 fuel t ht hf, h1, h2⟩, ?_⟩
  have hall : ∀ x ∈ err, ("%1".toList <:+: x._msg → x._par1 ≠ []) ∧
      ("%2".toList <:+: x._msg → x._par2 ≠ []) := by decide
  exact hall m hm

/-- Witness of C13 at the message `memleak` of `main`. -/
theorem err_placeholders_resolved_witness :
    (Message.mk1 "memleak".toList 0 "Memory leak: %1".toList "varname".toList) ∈ err ∧
    ((∃ t, (∀ fuel, 2 ≤ fuel →
        (Message.mk1 "memleak".toList 0 "Memory leak: %1".toList "varname".toList).msg fuel false
          = some t) ∧
      ¬ "%1".toList <:+: t ∧ ¬ "%2".toList <:+: t) ∧
    ("%1".toList <:+:
        (Message.mk1 "memleak".toList 0 "Memory leak: %1".toList "varname".toList)._msg →
      (Message.mk1 "memleak".toList 0 "Memory leak: %1".toList "varname".toList)._par1 ≠ []) ∧
    ("%2".toList <:+:
        (Message.mk1 "memleak".toList 0 "Memory leak: %1".toList "varname".toList)._msg →
      (Message.mk1 "memleak".toList 0 "Memory leak: %1".toList "varname".toList)._par2 ≠ [])) ∧
    (Message.mk1 "memleak".toList 0 "Memory leak: %1".toList "varname".toList).msg 2 false
      = some "Memory leak: varname".toList :=
  have hm : (Message.mk1 "memleak".toList 0 "Memory leak: %1".toList "varname".toList) ∈ err :=
    .tail _ (.tail _ (.tail _ (.head _)))
  ⟨hm, err_placeholders_resolved _ hm, by decide⟩

end ErrMsg

/-! ## Part 2: the forward value-flow engine, theorems -/

namespace ForwardAnalyzer
open Scenario

/-- The table `join` is a meet: idempotent, commutative and associative, with
`conditional` below `live` and `dead`. -/
theorem join_meet :
    (∀ x, join x x = x) ∧ (∀ x y, join x y = join y x) ∧
    (∀ x y z, join (join x y) z = join x (join y z)) ∧
    (∀ x, join .conditional x = .conditional) := by
  refine ⟨?_, ?_, ?_, ?_⟩
  · intro x; cases x <;> rfl
  · intro x y; cases x <;> cases y <;> rfl
  · intro x y z; cases x <;> cases y <;> cases z <;> rfl
  · intro x; cases x <;> rfl

theorem Analyzer.clone_eq (a : Analyzer) : a.clone = a := rfl

theorem AnalyzerRel.same (a : Analyzer) (r : Result) (h : r.kind ≠ .invalidated) :
    AnalyzerRel a a r :=
  ⟨Or.inl rfl, fun _ => rfl, fun h' => absurd h' h⟩

theorem AnalyzerRel.dead (a : Analyzer) (r : Result) (h : r.kind = .invalidated) :
    AnalyzerRel a { a with stillValid := false } r := by
  refine ⟨Or.inr rfl, ?_, fun _ => rfl⟩
  intro h'
  rcases h' with h' | h' <;> rw [h] at h' <;> cases h'

theorem finish_shape (pos e : Nat) (a : Analyzer) (cs : Option Nat) :
    ShapeAt (fun _ e w => finish w e) pos e a cs := by
  cases cs with
  | none =>
    exact ⟨⟨.stillLive, e, .None⟩, a, none, [], [], fun A V => by simp [finish],
      by simp, by simp, AnalyzerRel.same _ _ (by simp)⟩
  | some h =>
    exact ⟨⟨.conditional, h, .Inconclusive⟩, a, some h, [], [], fun A V => by simp [finish],
      by simp, by simp, AnalyzerRel.same _ _ (by simp)⟩

theorem observe_eq (a : Analyzer) (cs : Option Nat) (A : List Annotation) (V : List Nat)
    (pos : Nat) :
    (⟨a, cs, A, V⟩ : Walk).observe pos (a.evaluate pos)
      = ⟨a, cs, A ++ obsAnn a cs pos, V ++ [pos]⟩ := by
  unfold Walk.observe obsAnn
  by_cases h : a.evaluate pos = .Read
  · simp [h, Walk.factState]
  · simp [h]

theorem obsAnn_mem (a : Analyzer) (cs : Option Nat) (pos : Nat) :
    ∀ x ∈ obsAnn a cs pos, x.token = pos ∧ x.factId = a.factId := by
  intro x hx
  unfold obsAnn at hx
  split at hx
  · simp at hx; subst hx; simp
  · simp at hx

theorem step_eq (ts : TokenStream) (s : Settings) (walk : Nat → Nat → Walk → Result × Walk)
    (pos e : Nat) (a : Analyzer) (cs : Option Nat) (A : List Annotation) (V : List Nat)
    (he : ¬ e ≤ pos) :
    step ts s walk pos e ⟨a, cs, A, V⟩ =
      if a.evaluate pos = .Write then
        (⟨.invalidated, pos, .Write⟩,
          ⟨{ a with stillValid := false }, cs, A ++ obsAnn a cs pos, V ++ [pos]⟩)
      else if a.evaluate pos = .Read ∧ a.consumed pos = true then
        (⟨.read, pos, .Read⟩, ⟨a, cs, A ++ obsAnn a cs pos, V ++ [pos]⟩)
      else
        match (ts pos).role with
        | .plain => walk (pos + 1) e ⟨a, cs, A ++ obsAnn a cs pos, V ++ [pos]⟩
        | .call =>
          if callMayInvalidate a s pos = true then
            (⟨.invalidated, pos, .Inconclusive⟩,
              ⟨{ a with stillValid := false }, cs, A ++ obsAnn a cs pos, V ++ [pos]⟩)
          else walk (pos + 1) e ⟨a, cs, A ++ obsAnn a cs pos, V ++ [pos]⟩
        | .jump k t =>
          if pos < t ∧ t ≤ e then walk t e ⟨a, cs, A ++ obsAnn a cs pos, V ++ [pos]⟩
          else (⟨jumpOut k, pos, .None⟩, ⟨a, cs, A ++ obsAnn a cs pos, V ++ [pos]⟩)
        | .branchHead el j =>
          if pos < el ∧ el ≤ j ∧ j ≤ e then
            let o1 := walk (pos + 1) el ⟨a, cs, A ++ obsAnn a cs pos, V ++ [pos]⟩
            let o2 := walk el j ⟨a, cs, o1.2.annotations, o1.2.visited⟩
            match mergeEdges o1.1 o2.1 with
            | .dead =>
              (⟨.invalidated, pos, .Write⟩,
                ⟨{ a with stillValid := false }, cs, o2.2.annotations, o2.2.visited⟩)
            | .live => walk j e ⟨a, cs, o2.2.annotations, o2.2.visited⟩
            | .conditional =>
              walk j e ⟨a, some (cs.getD pos), o2.2.annotations, o2.2.visited⟩
          else (⟨.unsupportedConstruct, pos, .None⟩, ⟨a, cs, A ++ obsAnn a cs pos, V ++ [pos]⟩)
        | .loopHead tl =>
          if pos < tl ∧ tl ≤ e then
            if loopPasses s = 0 then
              (⟨.unsupportedConstruct, pos, .None⟩, ⟨a, cs, A ++ obsAnn a cs pos, V ++ [pos]⟩)
            else
              let o1 := walk (pos + 1) tl ⟨a, cs, A ++ obsAnn a cs pos, V ++ [pos]⟩
              if o1.1.kind = .stillLive ∨ o1.1.kind = .conditional then
                if loopPasses s = 1 then walk tl e o1.2
                else
                  let o2 := walk (pos + 1) tl o1.2
                  if o2.1.kind = o1.1.kind then walk tl e o2.2
                  else (⟨.unsupportedConstruct, pos, .None⟩, o2.2)
              else o1
          else (⟨.unsupportedConstruct, pos, .None⟩, ⟨a, cs, A ++ obsAnn a cs pos, V ++ [pos]⟩) := by
  unfold step
  simp only [if_neg he, observe_eq, Walk.invalidate, onBranchSplit, Analyzer.clone_eq]

theorem step_shape (ts : TokenStream) (s : Settings)
    (walk : Nat → Nat → Walk → Result × Walk)
    (hwalk : ∀ pos e a cs, ShapeAt walk pos e a cs) :
    ∀ pos e a cs, ShapeAt (step ts s walk) pos e a cs := by
  intro pos e a cs
  by_cases he : e ≤ pos
  · obtain ⟨r, a', cs', as, vs, h, hv, ha, hr⟩ := finish_shape pos e a cs
    exact ⟨r, a', cs', as, vs, fun A V => by simp only [step, if_pos he]; exact h A V,
      hv, ha, hr⟩
  have hlt : pos < e := by omega
  have hself : ∀ t ∈ [pos], pos ≤ t ∧ t < e := by
    intro t ht; simp at ht; subst ht; exact ⟨le_refl _, hlt⟩
  have hobs : ∀ x ∈ obsAnn a cs pos, x.token ∈ [pos] ∧ x.factId = a.factId := by
    intro x hx
    obtain ⟨h1, h2⟩ := obsAnn_mem a cs pos x hx
    exact ⟨by simp [h1], h2⟩
  -- a traversal that goes on from `pos`
  have cont : ∀ (pos' e' : Nat) (cs0 : Option Nat) (as0 : List Annotation) (vs0 : List Nat),
      pos ≤ pos' → e' ≤ e →
      (∀ t ∈ vs0, pos ≤ t ∧ t < e) → (∀ x ∈ as0, x.token ∈ vs0 ∧ x.factId = a.factId) →
      ∃ (r : Result) (a' : Analyzer) (cs' : Option Nat) (as : List Annotation) (vs : List Nat),
        (∀ A V, walk pos' e' ⟨a, cs0, A ++ as0, V ++ vs0⟩ = (r, ⟨a', cs', A ++ as, V ++ vs⟩)) ∧
        (∀ t ∈ vs, pos ≤ t ∧ t < e) ∧
        (∀ x ∈ as, x.token ∈ vs ∧ x.factId = a.factId) ∧
        AnalyzerRel a a' r ∧ (∀ t ∈ vs0, t ∈ vs) := by
    intro pos' e' cs0 as0 vs0 hp hle hv0 ha0
    obtain ⟨r, a', cs', as, vs, h, hv, ha, hr⟩ := hwalk pos' e' a cs0
    refine ⟨r, a', cs', as0 ++ as, vs0 ++ vs, fun A V => ?_, ?_, ?_, hr, ?_⟩
    · rw [h]; simp
    · intro t ht
      rcases List.mem_append.mp ht with ht | ht
      · exact hv0 t ht
      · have := hv t ht; omega
    · intro x hx
      rcases List.mem_append.mp hx with hx | hx
      · exact ⟨List.mem_append_left _ (ha0 x hx).1, (ha0 x hx).2⟩
      · exact ⟨List.mem_append_right _ (ha x hx).1, (ha x hx).2⟩
    · intro t ht; exact List.mem_append_left _ ht
  by_cases hW : a.evaluate pos = .Write
  · refine ⟨⟨.invalidated, pos, .Write⟩, { a with stillValid := false }, cs, obsAnn a cs pos,
      [pos], fun A V => ?_, hself, hobs, AnalyzerRel.dead _ _ rfl⟩
    rw [step_eq _ _ _ _ _ _ _ _ _ he, if_pos hW]
  by_cases hR : a.evaluate pos = .Read ∧ a.consumed pos = true
  · refine ⟨⟨.read, pos, .Read⟩, a, cs, obsAnn a cs pos, [pos], fun A V => ?_, hself, hobs,
      AnalyzerRel.same _ _ (by simp)⟩
    rw [step_eq _ _ _ _ _ _ _ _ _ he, if_neg hW, if_pos hR]
  -- a stop at `pos` that leaves the analyzer as it is
  have stopHere : ∀ r : Result, r.kind ≠ .invalidated →
      (∀ A V, step ts s walk pos e ⟨a, cs, A, V⟩
        = (r, ⟨a, cs, A ++ obsAnn a cs pos, V ++ [pos]⟩)) →
      ShapeAt (step ts s walk) pos e a cs := fun r hr h =>
    ⟨r, a, cs, obsAnn a cs pos, [pos], h, hself, hobs, AnalyzerRel.same _ _ hr⟩
  cases hrole : (ts pos).role with
  | plain =>
    obtain ⟨r, a', cs', as, vs, h, hv, ha, hr, -⟩ :=
      cont (pos + 1) e cs (obsAnn a cs pos) [pos] (by omega) (le_refl _) hself hobs
    refine ⟨r, a', cs', as, vs, fun A V => ?_, hv, ha, hr⟩
    rw [step_eq _ _ _ _ _ _ _ _ _ he, if_neg hW, if_neg hR]
    simp only [hrole]
    exact h A V
  | call =>
    by_cases hc : callMayInvalidate a s pos = true
    · refine ⟨⟨.invalidated, pos, .Inconclusive⟩, { a with stillValid := false }, cs,
        obsAnn a cs pos, [pos], fun A V => ?_, hself, hobs, AnalyzerRel.dead _ _ rfl⟩
      rw [step_eq _ _ _ _ _ _ _ _ _ he, if_neg hW, if_neg hR]
      simp only [hrole, if_pos hc]
    · obtain ⟨r, a', cs', as, vs, h, hv, ha, hr, -⟩ :=
        cont (pos + 1) e cs (obsAnn a cs pos) [pos] (by omega) (le_refl _) hself hobs
      refine ⟨r, a', cs', as, vs, fun A V => ?_, hv, ha, hr⟩
      rw [step_eq _ _ _ _ _ _ _ _ _ he, if_neg hW, if_neg hR]
      simp only [hrole, if_neg hc]
      exact h A V
  | jump k t =>
    by_cases hg : pos < t ∧ t ≤ e
    · obtain ⟨r, a', cs', as, vs, h, hv, ha, hr, -⟩ :=
        cont t e cs (obsAnn a cs pos) [pos] (by omega) (le_refl _) hself hobs
      refine ⟨r, a', cs', as, vs, fun A V => ?_, hv, ha, hr⟩
      rw [step_eq _ _ _ _ _ _ _ _ _ he, if_neg hW, if_neg hR]
      simp only [hrole, if_pos hg]
      exact h A V
    · apply stopHere ⟨jumpOut k, pos, .None⟩ (by cases k <;> simp [jumpOut])
      intro A V
      rw [step_eq _ _ _ _ _ _ _ _ _ he, if_neg hW, if_neg hR]
      simp only [hrole, if_neg hg]
  | branchHead el j =>
    by_cases hg : pos < el ∧ el ≤ j ∧ j ≤ e
    · obtain ⟨r1, a1, cs1, as1, vs1, h1, hv1, ha1, -, hin1⟩ :=
        cont (pos + 1) el cs (obsAnn a cs pos) [pos] (by omega) (by omega) hself hobs
      obtain ⟨r2, a2, cs2, as2, vs2, h2, hv2, ha2, -, hin2⟩ :=
        cont el j cs as1 vs1 (by omega) (by omega) hv1 ha1
      have hstep : ∀ A V, step ts s walk pos e ⟨a, cs, A, V⟩ =
          match mergeEdges r1 r2 with
          | .dead =>
            (⟨.invalidated, pos, .Write⟩, ⟨{ a with stillValid := false }, cs, A ++ as2, V ++ vs2⟩)
          | .live => walk j e ⟨a, cs, A ++ as2, V ++ vs2⟩
          | .conditional => walk j e ⟨a, some (cs.getD pos), A ++ as2, V ++ vs2⟩ := by
        intro A V
        rw [step_eq _ _ _ _ _ _ _ _ _ he, if_neg hW, if_neg hR]
        simp only [hrole, if_pos hg, h1, h2]
      cases hm : mergeEdges r1 r2 with
      | dead =>
        exact ⟨⟨.invalidated, pos, .Write⟩, { a with stillValid := false }, cs, as2, vs2,
          fun A V => by rw [hstep, hm], hv2, ha2, AnalyzerRel.dead _ _ rfl⟩
      | live =>
        obtain ⟨r, a', cs', as, vs, h, hv, ha, hr, -⟩ :=
          cont j e cs as2 vs2 (by omega) (le_refl _) hv2 ha2
        exact ⟨r, a', cs', as, vs, fun A V => by rw [hstep, hm]; exact h A V, hv, ha, hr⟩
      | conditional =>
        obtain ⟨r, a', cs', as, vs, h, hv, ha, hr, -⟩ :=
          cont j e (some (cs.getD pos)) as2 vs2 (by omega) (le_refl _) hv2 ha2
        exact ⟨r, a', cs', as, vs, fun A V => by rw [hstep, hm]; exact h A V, hv, ha, hr⟩
    · apply stopHere ⟨.unsupportedConstruct, pos, .None⟩ (by simp)
      intro A V
      rw [step_eq _ _ _ _ _ _ _ _ _ he, if_neg hW, if_neg hR]
      simp only [hrole, if_neg hg]
  | loopHead tl =>
    by_cases hg : pos < tl ∧ tl ≤ e
    · by_cases hp0 : loopPasses s = 0
      · apply stopHere ⟨.unsupportedConstruct, pos, .None⟩ (by simp)
        intro A V
        rw [step_eq _ _ _ _ _ _ _ _ _ he, if_neg hW, if_neg hR]
        simp only [hrole, if_pos hg, if_pos hp0]
      · obtain ⟨r1, a1, cs1, as1, vs1, h1, hv1, ha1, hr1, hin1⟩ :=
          cont (pos + 1) tl cs (obsAnn a cs pos) [pos] (by omega) (by omega) hself hobs
        by_cases hk : r1.kind = .stillLive ∨ r1.kind = .conditional
        · have ea1 : a1 = a := hr1.2.1 hk
          subst ea1
          by_cases hp1 : loopPasses s = 1
          · obtain ⟨r, a', cs', as, vs, h, hv, ha, hr, -⟩ :=
              cont tl e cs1 as1 vs1 (by omega) (le_refl _) hv1 ha1
            refine ⟨r, a', cs', as, vs, fun A V => ?_, hv, ha, hr⟩
            rw [step_eq _ _ _ _ _ _ _ _ _ he, if_neg hW, if_neg hR]
            simp only [hrole, if_pos hg, if_neg hp0, h1, if_pos hk, if_pos hp1]
            exact h A V
          · obtain ⟨r2, a2, cs2, as2, vs2, h2, hv2, ha2, hr2, hin2⟩ :=
              cont (pos + 1) tl cs1 as1 vs1 (by omega) (by omega) hv1 ha1
            by_cases hk2 : r2.kind = r1.kind
            · have ea2 : a2 = a1 := hr2.2.1 (by rw [hk2]; exact hk)
              subst ea2
              obtain ⟨r, a', cs', as, vs, h, hv, ha, hr, -⟩ :=
                cont tl e cs2 as2 vs2 (by omega) (le_refl _) hv2 ha2
              refine ⟨r, a', cs', as, vs, fun A V => ?_, hv, ha, hr⟩
              rw [step_eq _ _ _ _ _ _ _ _ _ he, if_neg hW, if_neg hR]
              simp only [hrole, if_pos hg, if_neg hp0, h1, if_pos hk, if_neg hp1, h2,
                if_pos hk2]
              exact h A V
            · refine ⟨⟨.unsupportedConstruct, pos, .None⟩, a2, cs2, as2, vs2, fun A V => ?_,
                hv2, ha2, ?_⟩
              · rw [step_eq _ _ _ _ _ _ _ _ _ he, if_neg hW, if_neg hR]
                simp only [hrole, if_pos hg, if_neg hp0, h1, if_pos hk, if_neg hp1, h2,
                  if_neg hk2]
              · exact ⟨hr2.1, fun h => by simp at h, fun h => by simp at h⟩
        · refine ⟨r1, a1, cs1, as1, vs1, fun A V => ?_, hv1, ha1, hr1⟩
          rw [step_eq _ _ _ _ _ _ _ _ _ he, if_neg hW, if_neg hR]
          simp only [hrole, if_pos hg, if_neg hp0, h1, if_neg hk]
    · apply stopHere ⟨.unsupportedConstruct, pos, .None⟩ (by simp)
      intro A V
      rw [step_eq _ _ _ _ _ _ _ _ _ he, if_neg hW, if_neg hR]
      simp only [hrole, if_neg hg]

theorem forwardAux_shape (ts : TokenStream) (s : Settings) :
    ∀ n pos e a cs, ShapeAt (forwardAux ts s n) pos e a cs := by
  intro n
  induction n with
  | zero => intro pos e a cs; exact finish_shape pos e a cs
  | succ n ih => exact step_shape ts s (forwardAux ts s n) ih

theorem step_congr (ts : TokenStream) (s : Settings)
    (walk1 walk2 : Nat → Nat → Walk → Result × Walk) (pos e : Nat)
    (hagree : ∀ pos' e' w, pos < pos' → e' ≤ e → walk1 pos' e' w = walk2 pos' e' w)
    (w : Walk) : step ts s walk1 pos e w = step ts s walk2 pos e w := by
  obtain ⟨a, cs, A, V⟩ := w
  by_cases he : e ≤ pos
  · simp only [step, if_pos he]
  rw [step_eq _ _ _ _ _ _ _ _ _ he, step_eq _ _ _ _ _ _ _ _ _ he]
  have e1 : ∀ w, walk1 (pos + 1) e w = walk2 (pos + 1) e w :=
    fun w => hagree _ _ w (by omega) (le_refl _)
  cases hrole : (ts pos).role with
  | plain => simp only [e1]
  | call => simp only [e1]
  | jump k t =>
    by_cases hg : pos < t ∧ t ≤ e
    · simp only [if_pos hg, hagree t e _ hg.1 (le_refl _)]
    · simp only [if_neg hg]
  | branchHead el j =>
    by_cases hg : pos < el ∧ el ≤ j ∧ j ≤ e
    · have e2 : ∀ w, walk1 (pos + 1) el w = walk2 (pos + 1) el w :=
        fun w => hagree _ _ w (by omega) (by omega)
      have e3 : ∀ w, walk1 el j w = walk2 el j w :=
        fun w => hagree _ _ w (by omega) (by omega)
      have e4 : ∀ w, walk1 j e w = walk2 j e w :=
        fun w => hagree _ _ w (by omega) (by omega)
      simp only [if_pos hg, e2, e3, e4]
    · simp only [if_neg hg]
  | loopHead tl =>
    by_cases hg : pos < tl ∧ tl ≤ e
    · have e2 : ∀ w, walk1 (pos + 1) tl w = walk2 (pos + 1) tl w :=
        fun w => hagree _ _ w (by omega) (by omega)
      have e3 : ∀ w, walk1 tl e w = walk2 tl e w :=
        fun w => hagree _ _ w (by omega) (by omega)
      simp only [if_pos hg, e2, e3]
    · simp only [if_neg hg]

theorem forwardAux_fuel (ts : TokenStream) (s : Settings) :
    ∀ (n m pos e : Nat) (w : Walk), e - pos ≤ n → e - pos ≤ m →
      forwardAux ts s n pos e w = forwardAux ts s m pos e w := by
  intro n
  induction n with
  | zero =>
    intro m pos e w hn _
    cases m with
    | zero => rfl
    | succ m =>
      have he : e ≤ pos := by omega
      simp only [forwardAux, step, if_pos he]
  | succ n ih =>
    intro m pos e w hn hm
    cases m with
    | zero =>
      have he : e ≤ pos := by omega
      simp only [forwardAux, step, if_pos he]
    | succ m =>
      simp only [forwardAux]
      apply step_congr
      intro pos' e' w' hp he
      exact ih m pos' e' w' (by omega) (by omega)

theorem traverse_eq (ts : TokenStream) (s : Settings) (pos e : Nat) (w : Walk) :
    traverse ts s pos e w = step ts s (traverse ts s) pos e w := by
  unfold traverse
  by_cases he : e ≤ pos
  · have h0 : e - pos = 0 := by omega
    rw [h0]
    simp only [forwardAux, step, if_pos he]
  · obtain ⟨k, hk⟩ : ∃ k, e - pos = k + 1 := ⟨e - pos - 1, by omega⟩
    rw [hk]
    simp only [forwardAux]
    apply step_congr
    intro pos' e' w' hp he'
    exact forwardAux_fuel ts s k (e' - pos') pos' e' w' (by omega) (le_refl _)

theorem traverse_shape (ts : TokenStream) (s : Settings) :
    ∀ pos e a cs, ShapeAt (traverse ts s) pos e a cs := by
  intro pos e a cs
  exact forwardAux_shape ts s (e - pos) pos e a cs

theorem traverse_empty (ts : TokenStream) (s : Settings) (pos e : Nat) (w : Walk)
    (he : e ≤ pos) : traverse ts s pos e w = finish w e := by
  rw [traverse_eq]
  simp only [step, if_pos he]

theorem traverse_straight (ts : TokenStream) (s : Settings) (a : Analyzer) :
    ∀ (k pos e : Nat) (A : List Annotation) (V : List Nat), e - pos ≤ k →
      (∀ i, pos ≤ i → i < e → (ts i).role = .plain ∨ (ts i).role = .call) →
      (∀ i, pos ≤ i → i < e → a.evaluate i ≠ .Write) →
      (∀ i, pos ≤ i → i < e → ¬ (a.evaluate i = .Read ∧ a.consumed i = true)) →
      (∀ i, pos ≤ i → i < e → (ts i).role = .call → callMayInvalidate a s i = false) →
      (traverse ts s pos e ⟨a, none, A, V⟩).1 = ⟨.stillLive, e, .None⟩ := by
  intro k
  induction k with
  | zero =>
    intro pos e A V hk _ _ _ _
    rw [traverse_empty ts s pos e _ (by omega)]
    rfl
  | succ k ih =>
    intro pos e A V hk hsl hw hr hc
    by_cases he : e ≤ pos
    · rw [traverse_empty ts s pos e _ he]; rfl
    have hlt : pos < e := by omega
    rw [traverse_eq, step_eq _ _ _ _ _ _ _ _ _ he, if_neg (hw pos (le_refl _) hlt),
      if_neg (hr pos (le_refl _) hlt)]
    have next : ∀ A' V', (traverse ts s (pos + 1) e ⟨a, none, A', V'⟩).1
        = ⟨.stillLive, e, .None⟩ :=
      fun A' V' => ih (pos + 1) e A' V' (by omega)
        (fun i h1 h2 => hsl i (by omega) h2) (fun i h1 h2 => hw i (by omega) h2)
        (fun i h1 h2 => hr i (by omega) h2) (fun i h1 h2 => hc i (by omega) h2)
    rcases hsl pos (le_refl _) hlt with hrole | hrole
    · simp only [hrole]
      exact next _ _
    · have := hc pos (le_refl _) hlt hrole
      simp only [hrole, this, Bool.false_eq_true, if_false]
      exact next _ _

/-- C1, as stated, fails: over the one-token straight-line range `[0, 1)` no
token is evaluated as a write and the analyzer is in its initial state, yet the
read at token 0 consumes the fact and the result is `read`, not `still-live`. -/
theorem straight_line_counterexample :
    straightLine plainTokens 0 1 ∧ once.stillValid = true ∧
    (∀ i, 0 ≤ i → i < 1 → once.evaluate i ≠ .Write) ∧
    (valueFlowGenericForward plainTokens 0 1 once settings []).result
      = ⟨.read, 0, .Read⟩ := by
  refine ⟨fun i _ _ => Or.inl rfl, rfl, ?_, by decide⟩
  intro i _ hi
  have : i = 0 := by omega
  subst this
  decide

/-- C1, amended. Over a straight-line range in which no token is evaluated as a
write, no read consumes the fact and no unknown call may invalidate it,
`forward` with an explicit end returns `Result{still-live, end}`, and the
analyzer it worked on is as it was given (still valid when it was). -/
theorem forward_straight_line (ts : TokenStream) (start e : Nat) (a : Analyzer)
    (s : Settings) (table : List Annotation)
    (hsl : straightLine ts start e)
    (hw : ∀ i, start ≤ i → i < e → a.evaluate i ≠ .Write)
    (hr : ∀ i, start ≤ i → i < e → ¬ (a.evaluate i = .Read ∧ a.consumed i = true))
    (hc : ∀ i, start ≤ i → i < e → (ts i).role = .call → callMayInvalidate a s i = false) :
    (valueFlowGenericForward ts start e a s table).result = ⟨.stillLive, e, .None⟩ ∧
    (valueFlowGenericForward ts start e a s table).working = a := by
  have hres := traverse_straight ts s a (e - start) start e table [] (le_refl _) hsl hw hr hc
  obtain ⟨r, a', cs', as, vs, h, -, -, hrel⟩ := traverse_shape ts s start e a none
  simp only [valueFlowGenericForward, forward, Option.getD_some, Analyzer.clone_eq]
  rw [h] at hres ⊢
  simp only at hres
  subst hres
  exact ⟨rfl, hrel.2.1 (Or.inl rfl)⟩

/-- Witness of the amended C1: the fact `x == 0` over `y = 2; use(x);`. -/
theorem forward_straight_line_witness :
    straightLine plainTokens 0 2 ∧
    (∀ i, 0 ≤ i → i < 2 → readOnly.evaluate i ≠ .Write) ∧
    (∀ i, 0 ≤ i → i < 2 → ¬ (readOnly.evaluate i = .Read ∧ readOnly.consumed i = true)) ∧
    (∀ i, 0 ≤ i → i < 2 → (plainTokens i).role = .call →
      callMayInvalidate readOnly settings i = false) ∧
    ((valueFlowGenericForward plainTokens 0 2 readOnly settings []).result
        = ⟨.stillLive, 2, .None⟩ ∧
      (valueFlowGenericForward plainTokens 0 2 readOnly settings []).working = readOnly) :=
  have h1 : straightLine plainTokens 0 2 := fun i _ _ => Or.inl rfl
  have h2 : ∀ i, 0 ≤ i → i < 2 → readOnly.evaluate i ≠ .Write := by
    intro i _ hi
    have : i = 0 ∨ i = 1 := by omega
    rcases this with rfl | rfl <;> decide
  have h3 : ∀ i, 0 ≤ i → i < 2 →
      ¬ (readOnly.evaluate i = .Read ∧ readOnly.consumed i = true) := by
    intro i _ _ h
    exact absurd h.2 (by simp [readOnly])
  have h4 : ∀ i, 0 ≤ i → i < 2 → (plainTokens i).role = .call →
      callMayInvalidate readOnly settings i = false := by
    intro i _ _ h
    simp [plainTokens] at h
  ⟨h1, h2, h3, h4, forward_straight_line plainTokens 0 2 readOnly settings [] h1 h2 h3 h4⟩

/-- C4. `forward` is idempotent on fresh clones: a second run over the same
range, with a fresh clone of the same initial analyzer and on the side table
the first run left, returns the same `Result` and appends the same annotations
again, so the set of annotated tokens is the same. -/
theorem forward_idempotent (ts : TokenStream) (start : Nat) (end? : Option Nat)
    (w : World) :
    let run1 := World.call ts start end? { w with analyzer := w.analyzer.clone }
    let run2 := World.call ts start end? { run1.2 with analyzer := w.analyzer.clone }
    run2.1 = run1.1 ∧ run2.1.kind = run1.1.kind ∧
    ∃ as, run1.2.table = w.table ++ as ∧ run2.2.table = run1.2.table ++ as ∧
      ∀ t, t ∈ annotated run2.2.table ↔ t ∈ annotated run1.2.table := by
  intro run1 run2
  obtain ⟨r, a', cs', as, vs, h, -⟩ :=
    traverse_shape ts w.settings start (end?.getD (naturalEnd ts start)) w.analyzer none
  have e1 : run1 = (r, { w with analyzer := a', table := w.table ++ as }) := by
    show World.call ts start end? { w with analyzer := w.analyzer.clone } = _
    simp only [World.call, forward, Analyzer.clone_eq, h]
  have e2 : run2 = (r, { w with analyzer := a', table := (w.table ++ as) ++ as }) := by
    show World.call ts start end? { run1.2 with analyzer := w.analyzer.clone } = _
    rw [e1]
    simp only [World.call, forward, Analyzer.clone_eq, h]
  rw [e1, e2]
  refine ⟨rfl, rfl, as, rfl, rfl, ?_⟩
  intro t
  simp only [annotated, List.map_append, List.mem_append]
  tauto

/-- C5. `forward` terminates and stays inside its range: a larger bound on the
length of the range never changes the traversal (the bound `e - start` is never
what ends it), every token the engine consults lies in `[start, e)`, and so
does every token it annotates. -/
theorem forward_in_range (ts : TokenStream) (start e : Nat) (a : Analyzer) (s : Settings)
    (table : List Annotation) :
    (∀ k, forwardAux ts s (e - start + k) start e ⟨a.clone, none, table, []⟩
      = traverse ts s start e ⟨a.clone, none, table, []⟩) ∧
    (∀ t ∈ (valueFlowGenericForward ts start e a s table).visited, start ≤ t ∧ t < e) ∧
    ∃ as, (valueFlowGenericForward ts start e a s table).table = table ++ as ∧
      ∀ x ∈ as, start ≤ x.token ∧ x.token < e := by
  obtain ⟨r, a', cs', as, vs, h, hv, ha, -⟩ := traverse_shape ts s start e a none
  refine ⟨fun k => forwardAux_fuel ts s _ _ _ _ _ (by omega) (le_refl _), ?_, as, ?_, ?_⟩
  · simp only [valueFlowGenericForward, forward, Option.getD_some, Analyzer.clone_eq, h]
    simpa using hv
  · simp only [valueFlowGenericForward, forward, Option.getD_some, Analyzer.clone_eq, h]
  · intro x hx
    exact hv _ (ha x hx).1

end ForwardAnalyzer
